import Mathlib

/-!
Verification of the orchestrar milestone orchestrator (src/orchestrator.js).

JavaScript strings are modelled as `List Char`; JSON values produced by
`JSON.parse` are modelled by the inductive `Json` (numbers kept exact as
mantissa times a power of ten, so no floating-point rounding is modelled).
Fallible code returns `Except String` carrying the thrown `Error` message,
or `Option` where only success/failure matters.
-/

set_option maxRecDepth 4000

/-- A JavaScript value as produced by `JSON.parse`: null, booleans, numbers
(kept exact as `mant * 10 ^ exp10`), strings, arrays and objects (ordered
member lists; a duplicate key denotes the later assignment winning, as in
JavaScript object construction). -/
inductive Json where
  | null : Json
  | bool (b : Bool) : Json
  | num (mant : Int) (exp10 : Int) : Json
  | str (s : List Char) : Json
  | arr (items : List Json) : Json
  | obj (members : List (List Char × Json)) : Json

/-- JavaScript truthiness of a value (`if (x)`). -/
def jsTruthy : Json → Bool
  | .null => false
  | .bool b => b
  | .num m _ => m != 0
  | .str s => !s.isEmpty
  | .arr _ => true
  | .obj _ => true

/-- Property read `value.key` on a JavaScript value: defined (`some`) only on
objects having the key; with duplicate keys the last assignment wins, as in
JavaScript. Reading a property of a non-object or a missing key gives
`undefined`, modelled as `none`. -/
def jsField (v : Json) (key : List Char) : Option Json :=
  match v with
  | .obj members => members.foldl (fun acc kv => if kv.1 = key then some kv.2 else acc) none
  | _ => none

/-- Keys of `Object.keys(value)` for an object value (first-occurrence order,
each key once, as JavaScript reports insertion order); `[]` on non-objects. -/
def jsObjectKeys (v : Json) : List (List Char) :=
  match v with
  | .obj members => (members.map Prod.fst).dedup
  | _ => []

/-- Membership test `"key" in value` restricted to own properties: true only
for objects that carry the key. (`in` on an array or primitive coming out of
`JSON.parse` never sees a `findings` property.) -/
def jsHasKey (v : Json) (key : List Char) : Bool :=
  match v with
  | .obj members => members.any (fun kv => kv.1 = key)
  | _ => false

/-- The character class of the JavaScript regular-expression `\s` and of
`String.prototype.trim`: ASCII whitespace, NBSP, the Unicode space separators,
the line separators and the BOM. -/
def jsWs (c : Char) : Bool :=
  c = ' ' || c = '\t' || c = '\n' || c = '\r' ||
  c = Char.ofNat 0x0b || c = Char.ofNat 0x0c ||
  c = Char.ofNat 0xa0 || c = Char.ofNat 0x1680 ||
  (Char.ofNat 0x2000 ≤ c && c ≤ Char.ofNat 0x200a) ||
  c = Char.ofNat 0x2028 || c = Char.ofNat 0x2029 ||
  c = Char.ofNat 0x202f || c = Char.ofNat 0x205f ||
  c = Char.ofNat 0x3000 || c = Char.ofNat 0xfeff

/-- JavaScript `String.prototype.trim`: strip `jsWs` from both ends. -/
def jsTrim (cs : List Char) : List Char :=
  ((cs.dropWhile jsWs).reverse.dropWhile jsWs).reverse

/-- Line terminators after which the `m`-flag anchor `^` matches. -/
def jsLineTerm (c : Char) : Bool :=
  c = '\n' || c = '\r' || c = Char.ofNat 0x2028 || c = Char.ofNat 0x2029

/-- Decimal digit test. -/
def isDigitChar (c : Char) : Bool := 0x30 ≤ c.toNat && c.toNat ≤ 0x39

/-! ## JSON.stringify model (rendering) -/

/-- Lower-case hex digit character for `n < 16`. -/
def renderHexDigit (n : Nat) : Char :=
  Char.ofNat (if n < 10 then 0x30 + n else 0x57 + n)

/-- One string character as `JSON.stringify` emits it: quote, backslash and
control characters are escaped, everything else is emitted verbatim. -/
def escapeChar (c : Char) : List Char :=
  if c = '"' then ['\\', '"']
  else if c = '\\' then ['\\', '\\']
  else if c = '\n' then ['\\', 'n']
  else if c = '\r' then ['\\', 'r']
  else if c = '\t' then ['\\', 't']
  else if c = Char.ofNat 8 then ['\\', 'b']
  else if c = Char.ofNat 12 then ['\\', 'f']
  else if c.toNat < 0x20 then
    '\\' :: 'u' :: '0' :: '0'
      :: renderHexDigit (c.toNat / 16) :: [renderHexDigit (c.toNat % 16)]
  else [c]

/-- A rendered JSON string: quoted, content escaped. -/
def renderStr (s : List Char) : List Char := '"' :: (s.flatMap escapeChar ++ ['"'])

/-- Decimal digits of `n`, most significant first. -/
def natDigits (n : Nat) : List Char :=
  if n < 10 then [Char.ofNat ('0'.toNat + n)]
  else natDigits (n / 10) ++ [Char.ofNat ('0'.toNat + n % 10)]
termination_by n
decreasing_by exact Nat.div_lt_self (by omega) (by omega)

/-- Characters of an integer: optional minus sign, then decimal digits. -/
def intChars (i : Int) : List Char :=
  if i < 0 then '-' :: natDigits i.natAbs else natDigits i.natAbs

/-- A rendered number `mant * 10 ^ exp10`, in integer or exponent notation
(both within the JSON number grammar). -/
def renderNum (mant exp10 : Int) : List Char :=
  intChars mant ++ (if exp10 = 0 then [] else 'e' :: intChars exp10)

mutual

/-- Render a value to JSON text (compact, like `JSON.stringify` with no
spacing argument). -/
def renderJson : Json → List Char
  | .null => 'n' :: "ull".toList
  | .bool true => 't' :: "rue".toList
  | .bool false => 'f' :: "alse".toList
  | .num m e => renderNum m e
  | .str s => renderStr s
  | .arr items => '[' :: (renderItems items ++ [']'])
  | .obj members => '{' :: (renderMembers members ++ ['}'])

/-- Render array elements, comma separated. -/
def renderItems : List Json → List Char
  | [] => []
  | [v] => renderJson v
  | v :: vs => renderJson v ++ ',' :: renderItems vs

/-- Render object members, comma separated. -/
def renderMembers : List (List Char × Json) → List Char
  | [] => []
  | [(k, v)] => renderStr k ++ ':' :: renderJson v
  | (k, v) :: ms => renderStr k ++ ':' :: (renderJson v ++ ',' :: renderMembers ms)

end

/-- Model of the source's `safeStringify`: serialize, truncating past 1000
characters. -/
def safeStringify (v : Json) : List Char :=
  let json := renderJson v
  if json.length > 1000 then json.take 1000 ++ "...".toList else json

/-- Model of the source's `formatError` on provider error payloads: falsy
payloads report "Unknown error", others are serialized. (The `instanceof
Error` branch concerns exception objects, which never arise for the JSON
payloads modelled here.) -/
def formatError (e : Json) : List Char :=
  if jsTruthy e then renderJson e else "Unknown error".toList

/-! ## Simple source functions -/

/-- Numeric value of a run of decimal digit characters. -/
def digitsVal (ds : List Char) : Nat :=
  ds.foldl (fun a c => a * 10 + (c.toNat - '0'.toNat)) 0

/-- Model of JavaScript `Number.parseInt(value, 10)`: skip leading
whitespace, read an optional sign and a maximal run of decimal digits;
`none` models `NaN` (no digits). The value is kept exact (the float
rounding of astronomically long digit strings is not modelled). -/
def parseIntJS (cs : List Char) : Option Int :=
  let cs1 := cs.dropWhile jsWs
  let signed : Int × List Char :=
    match cs1 with
    | '-' :: t => (-1, t)
    | '+' :: t => (1, t)
    | t => (1, t)
  let ds := signed.2.takeWhile isDigitChar
  if ds.isEmpty then none else some (signed.1 * (digitsVal ds : Int))

/-- Model of the source's `parseNumber(value, fallback)`: the fallback unless
the value is a nonempty string whose parsed integer is strictly positive. -/
def parseNumber (value : Option (List Char)) (fallback : Nat) : Nat :=
  match value with
  | none => fallback
  | some s =>
    if s.isEmpty then fallback
    else
      match parseIntJS s with
      | none => fallback
      | some n => if 0 < n then n.toNat else fallback

/-- Model of the source's `parseModelSpec`: split at the first `/`, trim each
side, fail when there is no separator or a trimmed side is empty. -/
def parseModelSpec (spec : List Char) : Except (List Char) (List Char × List Char) :=
  let pre := spec.takeWhile (fun c => c != '/')
  if pre.length = spec.length then .error ("Invalid model spec: ".toList ++ spec)
  else
    let providerID := jsTrim pre
    let modelID := jsTrim (spec.drop (pre.length + 1))
    if providerID.isEmpty || modelID.isEmpty then
      .error ("Invalid model spec: ".toList ++ spec)
    else .ok (providerID, modelID)

/-- True on values for which JavaScript `typeof` reports "object": null,
arrays and objects. -/
def jsTypeofObject : Json → Bool
  | .null => true
  | .arr _ => true
  | .obj _ => true
  | _ => false

/-- Model of the source's `isFindingsEmpty`: reject non-objects and objects
without a `findings` array, else report whether the array is empty. -/
def isFindingsEmpty (reviewJson : Json) : Except (List Char) Bool :=
  if !jsTruthy reviewJson || !jsTypeofObject reviewJson then
    .error ("Review JSON was not an object.".toList)
  else
    match jsField reviewJson ("findings".toList) with
    | some (.arr fs) => .ok fs.isEmpty
    | _ => .error ("Review JSON is missing a findings array.".toList)

/-- Model of the source's `unwrap(result, label)`: results that are objects
carrying a `data` key are unwrapped — a truthy `error` member throws, else
the `data` member is returned; any other result is passed through. -/
def unwrap (result : Json) (label : List Char) : Except (List Char) Json :=
  if jsTruthy result && jsTypeofObject result && jsHasKey result ("data".toList) then
    match jsField result ("error".toList) with
    | some e =>
      if jsTruthy e then .error (label ++ " failed: ".toList ++ formatError e)
      else .ok ((jsField result ("data".toList)).getD .null)
    | none => .ok ((jsField result ("data".toList)).getD .null)
  else .ok result

/-- Head-character whitespace test, the committed first step of `\s+`. -/
def headIsWs : List Char → Bool
  | c :: _ => jsWs c
  | [] => false

/-- The pattern fragment `\[\s\]`: an opening bracket, exactly one whitespace
character, and a closing bracket. -/
def bracketOneWs : List Char → Bool
  | '[' :: u :: ']' :: _ => jsWs u
  | _ => false

/-- Model of the unchecked-task pattern match at one position: the regular
expression `\s*[-*+]\s+\[\s\]` matched at the head of `cs`. The maximal
munching is faithful because no bullet nor `[` is a whitespace character, so
the engine's backtracking has no other way to match. -/
def matchUnchecked (cs : List Char) : Bool :=
  match cs.dropWhile jsWs with
  | m :: rest =>
    (m = '-' || m = '*' || m = '+') && headIsWs rest && bracketOneWs (rest.dropWhile jsWs)
  | [] => false

/-- Scan for a match of the unchecked-task pattern anchored right after a
line terminator. -/
def huScan : List Char → Bool
  | [] => false
  | c :: rest => (jsLineTerm c && matchUnchecked rest) || huScan rest

/-- Model of the source's `hasUnfinishedTasks`: the multiline-anchored test
of `/^\s*[-*+]\s+\[\s\]/m` against the checklist text — a match at the very
start, or at any position following a line terminator. -/
def hasUnfinishedTasks (content : List Char) : Bool :=
  matchUnchecked content || huScan content

/-! ## Helper lemmas on whitespace runs -/

theorem dropWhile_all_append (p : Char → Bool) :
    ∀ (a l : List Char), (∀ c ∈ a, p c = true) → (a ++ l).dropWhile p = l.dropWhile p := by
  intro a
  induction a with
  | nil => intro l _; rfl
  | cons c t ih =>
    intro l h
    have hc : p c = true := h c (by simp)
    simp only [List.cons_append, List.dropWhile_cons, hc, if_true]
    exact ih l (fun x hx => h x (by simp [hx]))

theorem dropWhile_head_false (p : Char → Bool) (c : Char) (l : List Char)
    (h : p c = false) : (c :: l).dropWhile p = c :: l := by
  simp [List.dropWhile_cons, h]

theorem takeWhile_all_of_mem (p : Char → Bool) :
    ∀ (l : List Char), ∀ c ∈ l.takeWhile p, p c = true := by
  intro l
  induction l with
  | nil => intro c hc; simp [List.takeWhile] at hc
  | cons x t ih =>
    intro c hc
    by_cases hx : p x = true
    · rw [List.takeWhile_cons, if_pos hx] at hc
      rcases List.mem_cons.mp hc with h | h
      · exact h ▸ hx
      · exact ih c h
    · rw [List.takeWhile_cons, if_neg hx] at hc
      simp at hc

/-! ## Claim C10: parseNumber fallback behaviour -/

/-- Claim C10: for every numeric configuration key, an environment value that
is absent, empty, not parseable as an integer, zero, or negative is silently
replaced by the fallback; `parseNumber` returns the fallback unless the value
parses to an integer strictly greater than zero, in which case it returns
that integer. -/
theorem parseNumber_fallback_spec : ∀ (s : List Char) (fallback : Nat),
    parseNumber none fallback = fallback ∧
    parseNumber (some []) fallback = fallback ∧
    (parseIntJS s = none → parseNumber (some s) fallback = fallback) ∧
    (∀ n : Int, parseIntJS s = some n → n ≤ 0 → parseNumber (some s) fallback = fallback) ∧
    (∀ n : Int, parseIntJS s = some n → 0 < n → parseNumber (some s) fallback = n.toNat) := by
  intro s fallback
  refine ⟨rfl, rfl, ?_, ?_, ?_⟩
  · intro h
    cases hs : s with
    | nil => rfl
    | cons c t =>
      simp only [parseNumber, List.isEmpty_cons, if_neg]
      rw [hs] at h
      simp [h]
  · intro n h hle
    cases hs : s with
    | nil => rfl
    | cons c t =>
      rw [hs] at h
      simp only [parseNumber, List.isEmpty_cons, h]
      simp [Int.not_lt.mpr hle]
  · intro n h hpos
    have hs : s.isEmpty = false := by
      cases s with
      | nil => simp [parseIntJS, digitsVal] at h
      | cons c t => rfl
    simp only [parseNumber, hs, h]
    simp [hpos]

/-- Witness for C10 at a concrete positive value. -/
theorem parseNumber_fallback_spec_witness :
    parseNumber (some ("7".toList)) 20 = 7 := by
  have h := (parseNumber_fallback_spec ("7".toList) 20).2.2.2.2 7 (by decide) (by decide)
  exact h

/-! ## Claim C6: isFindingsEmpty hard errors -/

/-- Claim C6: `isFindingsEmpty` throws on every value that is not an object
carrying a `findings` array (absence of the field is a hard error, never "no
findings"), and on an object with a `findings` array it returns true iff the
array has zero elements. -/
theorem isFindingsEmpty_spec : ∀ v : Json,
    (∀ fs, jsField v ("findings".toList) = some (.arr fs) →
      isFindingsEmpty v = .ok fs.isEmpty) ∧
    ((∀ fs, jsField v ("findings".toList) ≠ some (.arr fs)) →
      ∃ msg, isFindingsEmpty v = .error msg) := by
  intro v
  constructor
  · intro fs hfield
    cases v with
    | obj members =>
      simp only [isFindingsEmpty, jsTruthy, jsTypeofObject, Bool.not_true, Bool.or_self,
        Bool.false_eq_true, if_false, hfield]
    | null => simp [jsField] at hfield
    | bool b => simp [jsField] at hfield
    | num m e => simp [jsField] at hfield
    | str s => simp [jsField] at hfield
    | arr items => simp [jsField] at hfield
  · intro hno
    cases v with
    | null => exact ⟨_, rfl⟩
    | bool b => cases b <;> exact ⟨_, rfl⟩
    | num m e =>
      exact ⟨"Review JSON was not an object.".toList, by
        simp [isFindingsEmpty, jsTypeofObject]⟩
    | str s =>
      exact ⟨"Review JSON was not an object.".toList, by
        simp [isFindingsEmpty, jsTypeofObject]⟩
    | arr items => exact ⟨_, rfl⟩
    | obj members =>
      simp only [isFindingsEmpty, jsTruthy, jsTypeofObject, Bool.not_true, Bool.or_self,
        Bool.false_eq_true, if_false]
      cases hf : jsField (.obj members) ("findings".toList) with
      | none => exact ⟨_, rfl⟩
      | some w =>
        cases w with
        | arr fs => exact absurd hf (hno fs)
        | null => exact ⟨_, rfl⟩
        | bool b => exact ⟨_, rfl⟩
        | num m e => exact ⟨_, rfl⟩
        | str s => exact ⟨_, rfl⟩
        | obj ms => exact ⟨_, rfl⟩

/-- Witness for C6: a concrete object with an empty findings array reports
true, and a concrete object lacking the field errors. -/
theorem isFindingsEmpty_spec_witness :
    isFindingsEmpty (.obj [("findings".toList, .arr [])]) = .ok true ∧
    ∃ msg, isFindingsEmpty (.obj [("other".toList, .arr [])]) = .error msg := by
  constructor
  · exact (isFindingsEmpty_spec _).1 [] rfl
  · refine (isFindingsEmpty_spec _).2 ?_
    intro fs h
    rw [show jsField (Json.obj [("other".toList, Json.arr [])]) ("findings".toList) = none
        from rfl] at h
    exact Option.noConfusion h

/-! ## Claim C7: parseModelSpec -/

theorem takeWhile_noSlash : ∀ (pre post : List Char), (∀ c ∈ pre, c ≠ '/') →
    (pre ++ '/' :: post).takeWhile (fun c => c != '/') = pre := by
  intro pre
  induction pre with
  | nil => intro post _; simp [List.takeWhile_cons]
  | cons c t ih =>
    intro post h
    have hc : (c != '/') = true := by
      simp only [bne_iff_ne, ne_eq]
      exact h c (by simp)
    simp only [List.cons_append, List.takeWhile_cons, hc, if_true, List.cons.injEq, true_and]
    exact ih post (fun x hx => h x (by simp [hx]))

theorem takeWhile_noSlash_self : ∀ (spec : List Char), (∀ c ∈ spec, c ≠ '/') →
    spec.takeWhile (fun c => c != '/') = spec := by
  intro spec
  induction spec with
  | nil => intro _; rfl
  | cons c t ih =>
    intro h
    have hc : (c != '/') = true := by
      simp only [bne_iff_ne, ne_eq]
      exact h c (by simp)
    simp only [List.takeWhile_cons, hc, if_true, List.cons.injEq, true_and]
    exact ih (fun x hx => h x (by simp [hx]))

/-- Counterexample for claim C7: the code trims each half, so on
`"p /m"` — whose first half `"p "` and second half `"m"` are both
non-empty — it does not return the pair of the two halves. -/
theorem parseModelSpec_claim_cex :
    parseModelSpec ("p /m".toList) = .ok ("p".toList, "m".toList) ∧
    ("p".toList, "m".toList) ≠ ("p ".toList, "m".toList) := by
  exact ⟨rfl, by decide⟩

/-- Claim C7, amended: `parseModelSpec` splits at the first `/`, trims each
half, fails when there is no separator or a trimmed half is empty, and
otherwise returns the pair of trimmed halves. -/
theorem parseModelSpec_spec : ∀ pre post spec : List Char,
    ((∀ c ∈ pre, c ≠ '/') → spec = pre ++ '/' :: post →
      parseModelSpec spec =
        (if (jsTrim pre).isEmpty || (jsTrim post).isEmpty then
           .error ("Invalid model spec: ".toList ++ spec)
         else .ok (jsTrim pre, jsTrim post))) ∧
    ((∀ c ∈ spec, c ≠ '/') →
      parseModelSpec spec = .error ("Invalid model spec: ".toList ++ spec)) := by
  intro pre post spec
  constructor
  · intro hpre hspec
    subst hspec
    have htw := takeWhile_noSlash pre post hpre
    have hlen : pre.length ≠ (pre ++ '/' :: post).length := by
      simp only [List.length_append, List.length_cons]
      omega
    have hdrop : (pre ++ '/' :: post).drop (pre.length + 1) = post := by
      have : pre ++ '/' :: post = (pre ++ ['/']) ++ post := by simp
      rw [this, show pre.length + 1 = (pre ++ ['/']).length by simp]
      exact List.drop_left _ _
    simp only [parseModelSpec, htw, hlen, if_false, hdrop]
  · intro hall
    have htw := takeWhile_noSlash_self spec hall
    simp [parseModelSpec, htw]

/-- Witness for C7 (amended) at the repository's own default model spec. -/
theorem parseModelSpec_spec_witness :
    parseModelSpec ("github-copilot/gpt-5-mini".toList) =
      .ok ("github-copilot".toList, "gpt-5-mini".toList) := by
  have h := (parseModelSpec_spec ("github-copilot".toList) ("gpt-5-mini".toList)
    ("github-copilot/gpt-5-mini".toList)).1 (by decide) rfl
  exact h.trans rfl

/-! ## Claim C8: unwrap normalization -/

/-- An error payload in the claim's sense: a value whose `error` member is
truthy. -/
def carriesErrorPayload (r : Json) : Bool :=
  match jsField r ("error".toList) with
  | some e => jsTruthy e
  | none => false

/-- Counterexample for claim C8: a result that carries an error payload but
no `data` key is returned unchanged by `unwrap` instead of being thrown. -/
theorem unwrap_claim_cex :
    carriesErrorPayload (.obj [("error".toList, .str ("boom".toList))]) = true ∧
    unwrap (.obj [("error".toList, .str ("boom".toList))]) ("session.create".toList) =
      .ok (.obj [("error".toList, .str ("boom".toList))]) := by
  exact ⟨rfl, rfl⟩

/-- Claim C8, amended: on results that carry a `data` key, `unwrap` throws a
provider error embedding the provider's error message whenever the `error`
member is truthy, and returns the `data` member otherwise; a result without
a `data` key is passed through unchanged. -/
theorem unwrap_spec : ∀ (r : Json) (label : List Char),
    (∀ e, jsHasKey r ("data".toList) = true → jsField r ("error".toList) = some e →
      jsTruthy e = true →
      unwrap r label = .error (label ++ " failed: ".toList ++ formatError e)) ∧
    (jsHasKey r ("data".toList) = true →
      (jsField r ("error".toList) = none ∨
        ∃ e, jsField r ("error".toList) = some e ∧ jsTruthy e = false) →
      unwrap r label = .ok ((jsField r ("data".toList)).getD .null)) ∧
    (jsHasKey r ("data".toList) = false → unwrap r label = .ok r) := by
  intro r label
  have hobj : jsHasKey r ("data".toList) = true →
      (jsTruthy r && jsTypeofObject r && jsHasKey r ("data".toList)) = true := by
    intro h
    cases r with
    | obj members =>
      rw [show jsTruthy (Json.obj members) = true from rfl,
          show jsTypeofObject (Json.obj members) = true from rfl, h]
      rfl
    | null => simp [jsHasKey] at h
    | bool b => simp [jsHasKey] at h
    | num m e => simp [jsHasKey] at h
    | str s => simp [jsHasKey] at h
    | arr items => simp [jsHasKey] at h
  refine ⟨?_, ?_, ?_⟩
  · intro e hd he htr
    simp only [unwrap, hobj hd, if_true, he, htr, if_true]
  · intro hd herr
    rcases herr with h | ⟨e, he, hf⟩
    · simp only [unwrap, hobj hd, if_true, h]
    · simp only [unwrap, hobj hd, if_true, he, hf, Bool.false_eq_true, if_false]
  · intro hd
    simp only [unwrap, hd, Bool.and_false, Bool.false_eq_true, if_false]

/-- Witness for C8 (amended): a concrete error result throws with the
provider message embedded, and a concrete success result yields its data. -/
theorem unwrap_spec_witness :
    unwrap (.obj [("data".toList, .null), ("error".toList, .str ("boom".toList))])
        ("session.status".toList) =
      .error ("session.status failed: ".toList ++ formatError (.str ("boom".toList))) ∧
    unwrap (.obj [("data".toList, .bool true)]) ("session.status".toList) =
      .ok (.bool true) := by
  constructor
  · exact (unwrap_spec (.obj [("data".toList, .null), ("error".toList, .str ("boom".toList))])
      ("session.status".toList)).1 (.str ("boom".toList)) rfl rfl rfl
  · exact ((unwrap_spec (.obj [("data".toList, .bool true)])
      ("session.status".toList)).2.1 rfl (Or.inl rfl)).trans rfl


/-! ## Claim C3: hasUnfinishedTasks -/

/-- Reading of the claim's per-line pattern, following its words: after
leading whitespace, a bullet marker followed by whitespace and a bracket
pair containing only whitespace. -/
def specUncheckedLine (line : List Char) : Bool :=
  match line.dropWhile jsWs with
  | m :: rest =>
    (m = '-' || m = '*' || m = '+') && headIsWs rest &&
    (match rest.dropWhile jsWs with
     | '[' :: t =>
       !(t.takeWhile jsWs).isEmpty &&
       (match t.dropWhile jsWs with
        | ']' :: _ => true
        | _ => false)
     | _ => false)
  | [] => false

/-- Reading of the claim: at least one line of the text matches the per-line
pattern. -/
def specHasUnfinishedByLines (cs : List Char) : Bool :=
  (cs.splitOn '\n').any specUncheckedLine

/-- Counterexample for claim C3 as stated: the code's bracket pattern admits
exactly one whitespace character, so the line `- [  ] x` (two spaces in the
brackets, a bracket pair containing only whitespace) does not match; and the
pattern's whitespace may cross line boundaries, so `- [\n]` matches the code
although no single line matches the pattern. -/
theorem hasUnfinishedTasks_claim_cex :
    (specHasUnfinishedByLines ("- [  ] x".toList) = true ∧
      hasUnfinishedTasks ("- [  ] x".toList) = false) ∧
    (specHasUnfinishedByLines ("- [\n]".toList) = false ∧
      hasUnfinishedTasks ("- [\n]".toList) = true) := by
  refine ⟨⟨?_, ?_⟩, ?_, ?_⟩ <;> decide

theorem matchUnchecked_drop_nil (cs : List Char) (h : cs.dropWhile jsWs = []) :
    matchUnchecked cs = false := by
  unfold matchUnchecked
  rw [h]

theorem matchUnchecked_drop_cons (cs : List Char) (m : Char) (rest : List Char)
    (h : cs.dropWhile jsWs = m :: rest) :
    matchUnchecked cs =
      ((m = '-' || m = '*' || m = '+') && headIsWs rest &&
        bracketOneWs (rest.dropWhile jsWs)) := by
  unfold matchUnchecked
  rw [h]

theorem headIsWs_decomp (l : List Char) (h : headIsWs l = true) :
    ∃ c t, l = c :: t ∧ jsWs c = true := by
  cases l with
  | nil => simp [headIsWs] at h
  | cons c t => exact ⟨c, t, rfl, h⟩

theorem bracketOneWs_decomp (l : List Char) (h : bracketOneWs l = true) :
    ∃ u t, l = '[' :: u :: ']' :: t ∧ jsWs u = true := by
  unfold bracketOneWs at h
  split at h
  · rename_i u t
    exact ⟨u, t, rfl, h⟩
  · exact absurd h (by simp)

theorem matchUnchecked_parts (w1 : List Char) (m : Char) (w2 : List Char) (u : Char)
    (rest : List Char) (hw1 : ∀ c ∈ w1, jsWs c = true) (hm : m = '-' ∨ m = '*' ∨ m = '+')
    (hw2ne : w2 ≠ []) (hw2 : ∀ c ∈ w2, jsWs c = true) (hu : jsWs u = true) :
    matchUnchecked (w1 ++ m :: (w2 ++ '[' :: u :: ']' :: rest)) = true := by
  have hmws : jsWs m = false := by rcases hm with h | h | h <;> subst h <;> decide
  obtain ⟨c0, w2t, rfl⟩ : ∃ c0 w2t, w2 = c0 :: w2t := by
    cases w2 with
    | nil => exact absurd rfl hw2ne
    | cons a b => exact ⟨a, b, rfl⟩
  have hc0 : jsWs c0 = true := hw2 c0 (by simp)
  have hdrop1 : (w1 ++ m :: (c0 :: w2t ++ '[' :: u :: ']' :: rest)).dropWhile jsWs
      = m :: (c0 :: w2t ++ '[' :: u :: ']' :: rest) := by
    rw [dropWhile_all_append _ _ _ hw1, dropWhile_head_false _ _ _ hmws]
  have hdrop2 : ((c0 :: w2t ++ '[' :: u :: ']' :: rest) : List Char).dropWhile jsWs
      = '[' :: u :: ']' :: rest := by
    rw [show ((c0 :: w2t ++ '[' :: u :: ']' :: rest) : List Char)
        = (c0 :: w2t) ++ '[' :: u :: ']' :: rest from rfl,
      dropWhile_all_append _ _ _ hw2, dropWhile_head_false]
    decide
  rw [matchUnchecked_drop_cons _ _ _ hdrop1, hdrop2]
  rw [show headIsWs (c0 :: w2t ++ '[' :: u :: ']' :: rest) = jsWs c0 from rfl]
  rw [show bracketOneWs ('[' :: u :: ']' :: rest) = jsWs u from rfl, hc0, hu]
  rcases hm with h | h | h <;> simp [h]

theorem matchUnchecked_decomp (cs : List Char) (h : matchUnchecked cs = true) :
    ∃ w1 m w2 u rest, cs = w1 ++ m :: (w2 ++ '[' :: u :: ']' :: rest) ∧
      (∀ c ∈ w1, jsWs c = true) ∧ (m = '-' ∨ m = '*' ∨ m = '+') ∧
      w2 ≠ [] ∧ (∀ c ∈ w2, jsWs c = true) ∧ jsWs u = true := by
  rcases hd : cs.dropWhile jsWs with _ | ⟨m, rest0⟩
  · rw [matchUnchecked_drop_nil cs hd] at h
    exact absurd h (by simp)
  · rw [matchUnchecked_drop_cons cs m rest0 hd] at h
    rw [Bool.and_eq_true, Bool.and_eq_true] at h
    obtain ⟨⟨hbullet, hws⟩, hbr⟩ := h
    have hm : m = '-' ∨ m = '*' ∨ m = '+' := by
      rcases Bool.or_eq_true_iff.mp hbullet with h1 | h1
      · rcases Bool.or_eq_true_iff.mp h1 with h2 | h2
        · exact Or.inl (by simpa using h2)
        · exact Or.inr (Or.inl (by simpa using h2))
      · exact Or.inr (Or.inr (by simpa using h1))
    obtain ⟨r0, t0, rfl, hr0⟩ := headIsWs_decomp _ hws
    obtain ⟨u, rest2, hd2, hu⟩ := bracketOneWs_decomp _ hbr
    have hsplit : cs.takeWhile jsWs ++ cs.dropWhile jsWs = cs :=
      List.takeWhile_append_dropWhile jsWs cs
    have hsplit2 : (r0 :: t0).takeWhile jsWs ++ (r0 :: t0).dropWhile jsWs = r0 :: t0 :=
      List.takeWhile_append_dropWhile jsWs (r0 :: t0)
    refine ⟨cs.takeWhile jsWs, m, (r0 :: t0).takeWhile jsWs, u, rest2, ?_,
      takeWhile_all_of_mem jsWs cs, hm, ?_, takeWhile_all_of_mem jsWs (r0 :: t0), hu⟩
    · conv_lhs => rw [← hsplit, hd]
      rw [show ((r0 :: t0).takeWhile jsWs ++ '[' :: u :: ']' :: rest2 : List Char)
          = (r0 :: t0).takeWhile jsWs ++ ((r0 :: t0).dropWhile jsWs) by rw [hd2], hsplit2]
    · rw [List.takeWhile_cons, if_pos hr0]
      simp

theorem huScan_decomp (cs : List Char) (h : huScan cs = true) :
    ∃ pre t tail, cs = pre ++ t :: tail ∧ jsLineTerm t = true ∧
      matchUnchecked tail = true := by
  induction cs with
  | nil => simp [huScan] at h
  | cons c rest ih =>
    rw [huScan, Bool.or_eq_true] at h
    rcases h with h1 | h2
    · rw [Bool.and_eq_true] at h1
      exact ⟨[], c, rest, rfl, h1.1, h1.2⟩
    · obtain ⟨pre, t, tail, heq, ht, hmu⟩ := ih h2
      exact ⟨c :: pre, t, tail, by rw [heq]; rfl, ht, hmu⟩

theorem huScan_anchor : ∀ (pre : List Char) (t : Char) (tail : List Char),
    jsLineTerm t = true → matchUnchecked tail = true →
    huScan (pre ++ t :: tail) = true := by
  intro pre
  induction pre with
  | nil =>
    intro t tail ht hmu
    simp [huScan, ht, hmu]
  | cons c rest ih =>
    intro t tail ht hmu
    rw [List.cons_append, huScan, Bool.or_eq_true]
    exact Or.inr (ih t tail ht hmu)

/-- Claim C3, amended: `hasUnfinishedTasks` returns true iff the text matches
`\s*[-*+]\s+\[\s\]` at the start or right after a line terminator — after an
anchored run of whitespace, a bullet marker, at least one whitespace
character, and a bracket pair containing exactly one whitespace character
(the whitespace runs may themselves span line terminators, since the
whitespace class contains them). -/
theorem hasUnfinishedTasks_iff (content : List Char) :
    hasUnfinishedTasks content = true ↔
    ∃ pre w1 m w2 u rest,
      content = pre ++ (w1 ++ m :: (w2 ++ '[' :: u :: ']' :: rest)) ∧
      (pre = [] ∨ ∃ p0 t, pre = p0 ++ [t] ∧ jsLineTerm t = true) ∧
      (∀ c ∈ w1, jsWs c = true) ∧
      (m = '-' ∨ m = '*' ∨ m = '+') ∧
      w2 ≠ [] ∧ (∀ c ∈ w2, jsWs c = true) ∧
      jsWs u = true := by
  constructor
  · intro h
    rw [hasUnfinishedTasks, Bool.or_eq_true] at h
    rcases h with h1 | h2
    · obtain ⟨w1, m, w2, u, rest, heq, hw1, hm, hne, hw2, hu⟩ := matchUnchecked_decomp _ h1
      exact ⟨[], w1, m, w2, u, rest, by simpa using heq, Or.inl rfl, hw1, hm, hne, hw2, hu⟩
    · obtain ⟨pre, t, tail, heq, ht, hmu⟩ := huScan_decomp _ h2
      obtain ⟨w1, m, w2, u, rest, heq2, hw1, hm, hne, hw2, hu⟩ := matchUnchecked_decomp _ hmu
      refine ⟨pre ++ [t], w1, m, w2, u, rest, ?_, Or.inr ⟨pre, t, rfl, ht⟩,
        hw1, hm, hne, hw2, hu⟩
      rw [heq, heq2]
      simp
  · rintro ⟨pre, w1, m, w2, u, rest, heq, hanchor, hw1, hm, hne, hw2, hu⟩
    subst heq
    rw [hasUnfinishedTasks, Bool.or_eq_true]
    have hmu := matchUnchecked_parts w1 m w2 u rest hw1 hm hne hw2 hu
    rcases hanchor with rfl | ⟨p0, t, rfl, ht⟩
    · exact Or.inl (by simpa using hmu)
    · refine Or.inr ?_
      rw [show p0 ++ [t] ++ (w1 ++ m :: (w2 ++ '[' :: u :: ']' :: rest))
          = p0 ++ t :: (w1 ++ m :: (w2 ++ '[' :: u :: ']' :: rest)) by simp]
      exact huScan_anchor p0 t _ ht hmu

/-- Witness for C3 (amended): a nested unchecked task after a line break is
detected. -/
theorem hasUnfinishedTasks_iff_witness :
    hasUnfinishedTasks ("x\n  * [ ] nested".toList) = true := by
  refine (hasUnfinishedTasks_iff _).mpr
    ⟨['x', '\n'], [' ', ' '], '*', [' '], ' ', " nested".toList, by decide,
      Or.inr ⟨['x'], '\n', rfl, by decide⟩, ?_, Or.inr (Or.inl rfl), by decide, ?_, by decide⟩
  · intro c hc
    rcases List.mem_cons.mp hc with rfl | hc
    · decide
    · rcases List.mem_cons.mp hc with rfl | hc
      · decide
      · simp at hc
  · intro c hc
    rcases List.mem_cons.mp hc with rfl | hc
    · decide
    · simp at hc

/-! ## Claim C1: the review convergence loop -/

/-- Trace of one run of the review loop: its outcome, how many times the
review command ran, how many fix prompts went to the work session, and how
many waits for that session to go idle followed them. -/
structure ReviewLoopTrace where
  outcome : Except (List Char) Unit
  reviews : Nat
  fixPrompts : Nat
  idleWaits : Nat

/-- The `ReviewLoopExceeded` message thrown by the source. -/
def reviewLoopExceededMsg (maxIterations : Nat) : List Char :=
  "Review loop exceeded ".toList ++ natDigits maxIterations ++
    " iterations without clean results.".toList

/-- Shared evaluation fact: on an object whose `findings` member is an array,
`isFindingsEmpty` reports whether that array is empty. -/
theorem isFindingsEmpty_of_arr (v : Json) (fs : List Json)
    (h : jsField v ("findings".toList) = some (.arr fs)) :
    isFindingsEmpty v = .ok fs.isEmpty := by
  cases v with
  | obj members =>
    simp only [isFindingsEmpty, jsTruthy, jsTypeofObject, Bool.not_true, Bool.or_self,
      Bool.false_eq_true, if_false, h]
  | null => simp [jsField] at h
  | bool b => simp [jsField] at h
  | num m e => simp [jsField] at h
  | str s => simp [jsField] at h
  | arr items => simp [jsField] at h

/-- Model of the `for` loop of the source's `runReviewLoop`, entered at
`iteration`: run the review command (whose parsed result for iteration `j`
is `results j`), return on empty findings, otherwise send a fix prompt,
wait for idle and continue; throw `ReviewLoopExceeded` past the bound.
Counts in the returned trace are absolute (from iteration 1). -/
def runReviewLoopGo (results : Nat → Json) (maxIterations iteration : Nat) :
    ReviewLoopTrace :=
  if iteration ≤ maxIterations then
    match isFindingsEmpty (results iteration) with
    | .error e => ⟨.error e, iteration, iteration - 1, iteration - 1⟩
    | .ok true => ⟨.ok (), iteration, iteration - 1, iteration - 1⟩
    | .ok false => runReviewLoopGo results maxIterations (iteration + 1)
  else
    ⟨.error (reviewLoopExceededMsg maxIterations), iteration - 1, iteration - 1, iteration - 1⟩
termination_by maxIterations + 1 - iteration
decreasing_by omega

/-- Model of the source's `runReviewLoop`: iteration starts at 1. -/
def runReviewLoop (results : Nat → Json) (maxIterations : Nat) : ReviewLoopTrace :=
  runReviewLoopGo results maxIterations 1

theorem runReviewLoopGo_converge (results : Nat → Json) (maxIterations : Nat) :
    ∀ (k i : Nat), i ≤ k → k ≤ maxIterations →
    (∀ j, i ≤ j → j < k → ∃ fs, fs ≠ [] ∧ jsField (results j) ("findings".toList) = some (.arr fs)) →
    jsField (results k) ("findings".toList) = some (.arr []) →
    runReviewLoopGo results maxIterations i = ⟨.ok (), k, k - 1, k - 1⟩ := by
  intro k
  suffices h : ∀ d i, k - i = d → i ≤ k → k ≤ maxIterations →
      (∀ j, i ≤ j → j < k →
        ∃ fs, fs ≠ [] ∧ jsField (results j) ("findings".toList) = some (.arr fs)) →
      jsField (results k) ("findings".toList) = some (.arr []) →
      runReviewLoopGo results maxIterations i = ⟨.ok (), k, k - 1, k - 1⟩ by
    exact fun i hik hkm hb he => h (k - i) i rfl hik hkm hb he
  intro d
  induction d with
  | zero =>
    intro i hd hik hkm _ hk
    have hik2 : i = k := by omega
    subst hik2
    rw [runReviewLoopGo, if_pos hkm, isFindingsEmpty_of_arr _ _ hk]
    rfl
  | succ d ih =>
    intro i hd hik hkm hbusy hk
    have hi : i < k := by omega
    obtain ⟨fs, hne, hfs⟩ := hbusy i (le_refl i) hi
    have hnonempty : fs.isEmpty = false := by
      cases fs with
      | nil => exact absurd rfl hne
      | cons a b => rfl
    rw [runReviewLoopGo, if_pos (by omega), isFindingsEmpty_of_arr _ _ hfs, hnonempty]
    exact ih (i + 1) (by omega) (by omega) (by omega)
      (fun j h1 h2 => hbusy j (by omega) h2) hk

theorem runReviewLoopGo_exhaust (results : Nat → Json) (maxIterations : Nat) :
    ∀ (i : Nat), i ≤ maxIterations + 1 →
    (∀ j, i ≤ j → j ≤ maxIterations →
      ∃ fs, fs ≠ [] ∧ jsField (results j) ("findings".toList) = some (.arr fs)) →
    runReviewLoopGo results maxIterations i =
      ⟨.error (reviewLoopExceededMsg maxIterations),
        maxIterations, maxIterations, maxIterations⟩ := by
  suffices h : ∀ d i, maxIterations + 1 - i = d → i ≤ maxIterations + 1 →
      (∀ j, i ≤ j → j ≤ maxIterations →
        ∃ fs, fs ≠ [] ∧ jsField (results j) ("findings".toList) = some (.arr fs)) →
      runReviewLoopGo results maxIterations i =
        ⟨.error (reviewLoopExceededMsg maxIterations),
          maxIterations, maxIterations, maxIterations⟩ by
    exact fun i hle hb => h (maxIterations + 1 - i) i rfl hle hb
  intro d
  induction d with
  | zero =>
    intro i hd hle _
    have : i = maxIterations + 1 := by omega
    subst this
    rw [runReviewLoopGo, if_neg (by omega)]
    simp
  | succ d ih =>
    intro i hd hle hbusy
    have hi : i ≤ maxIterations := by omega
    obtain ⟨fs, hne, hfs⟩ := hbusy i (le_refl i) hi
    have hnonempty : fs.isEmpty = false := by
      cases fs with
      | nil => exact absurd rfl hne
      | cons a b => rfl
    rw [runReviewLoopGo, if_pos hi, isFindingsEmpty_of_arr _ _ hfs, hnonempty]
    exact ih (i + 1) (by omega) (by omega) (fun j h1 h2 => hbusy j (by omega) h2)

/-- Claim C1: for every `maxIterations ≥ 1`, if the parsed review result has
empty findings first at iteration `k ≤ maxIterations`, the loop returns
successfully after exactly `k` review-command invocations and `k - 1` fix
prompts, each followed by one wait for the work session to go idle; if the
findings are non-empty on every one of the `maxIterations` iterations, the
loop throws `ReviewLoopExceeded` after exactly `maxIterations` review-command
invocations. -/
theorem runReviewLoop_spec (results : Nat → Json) (maxIterations k : Nat)
    (hmax : 1 ≤ maxIterations) :
    ((1 ≤ k → k ≤ maxIterations →
      (∀ j, 1 ≤ j → j < k →
        ∃ fs, fs ≠ [] ∧ jsField (results j) ("findings".toList) = some (.arr fs)) →
      jsField (results k) ("findings".toList) = some (.arr []) →
      runReviewLoop results maxIterations = ⟨.ok (), k, k - 1, k - 1⟩) ∧
    ((∀ j, 1 ≤ j → j ≤ maxIterations →
        ∃ fs, fs ≠ [] ∧ jsField (results j) ("findings".toList) = some (.arr fs)) →
      runReviewLoop results maxIterations =
        ⟨.error (reviewLoopExceededMsg maxIterations),
          maxIterations, maxIterations, maxIterations⟩)) := by
  constructor
  · intro h1 hk hbusy hempty
    exact runReviewLoopGo_converge results maxIterations k 1 h1 hk hbusy hempty
  · intro hbusy
    exact runReviewLoopGo_exhaust results maxIterations 1 (by omega) hbusy

/-- Witness for C1: the spec's end-to-end scenario — one finding on
iterations 1 and 2, empty findings on iteration 3, bound 3 — gives exactly
3 review invocations and 2 fix prompts (each with one idle wait). -/
theorem runReviewLoop_spec_witness :
    runReviewLoop
      (fun j => if j ≤ 2 then .obj [("findings".toList, .arr [.str ("issue".toList)])]
                else .obj [("findings".toList, .arr [])]) 3
      = ⟨.ok (), 3, 2, 2⟩ := by
  refine (runReviewLoop_spec _ 3 3 (by omega)).1 (by omega) (by omega) ?_ rfl
  intro j h1 h2
  interval_cases j
  · exact ⟨[.str ("issue".toList)], by simp, rfl⟩
  · exact ⟨[.str ("issue".toList)], by simp, rfl⟩

/-! ## Claim C4: waitForSessionIdle -/

/-- Trace of one run of the idle poller: outcome, number of `session.status`
calls made, and number of sleeps of `pollIntervalMs` performed. -/
structure WaitTrace where
  outcome : Except (List Char) Unit
  statusCalls : Nat
  sleeps : Nat

/-- The `SessionMissing` message thrown by the source, listing the known
session ids. -/
def sessionMissingMsg (sessionID : List Char) (known : List (List Char)) : List Char :=
  "Session status missing for ".toList ++ sessionID ++ ". Known sessions: ".toList ++
    (if known.isEmpty then "none".toList else List.intercalate (", ".toList) known) ++
    ".".toList

/-- The `Timeout` message thrown by the source. -/
def timeoutMsg (sessionID : List Char) : List Char :=
  "Timed out waiting for session ".toList ++ sessionID ++ " to go idle.".toList

/-- Truthiness of an optional property read (`undefined` is falsy). -/
def statusOptTruthy : Option Json → Bool
  | some v => jsTruthy v
  | none => false

/-- The `status.type === "idle"` test of the source on the looked-up entry. -/
def isIdleStatus : Option Json → Bool
  | some v =>
    match jsField v ("type".toList) with
    | some (.str s) => s = "idle".toList
    | _ => false
  | none => false

/-- Model of the `while` loop of the source's `waitForSessionIdle`. `times k`
is the `Date.now()` reading at the k-th loop-condition check, `statusRaw k`
the raw provider result of the k-th `session.status` call, `start` the
reading taken before the loop. `fuel` bounds the number of modelled
iterations (`none` = fuel exhausted); `pollIntervalMs` is the slept duration,
carried for faithfulness but not consulted by the control flow. -/
def waitForSessionIdleGo (sessionID : List Char) (timeoutMs pollIntervalMs start : Nat)
    (times : Nat → Nat) (statusRaw : Nat → Json) : Nat → Nat → Option WaitTrace
  | 0, _ => none
  | fuel + 1, k =>
    if (times k : Int) - (start : Int) < (timeoutMs : Int) then
      match unwrap (statusRaw k) ("session.status".toList) with
      | .error e => some ⟨.error e, k + 1, k⟩
      | .ok statusMap =>
        let status := jsField statusMap sessionID
        if !statusOptTruthy status then
          some ⟨.error (sessionMissingMsg sessionID
            (if jsTruthy statusMap then jsObjectKeys statusMap else [])), k + 1, k⟩
        else if isIdleStatus status then
          some ⟨.ok (), k + 1, k⟩
        else
          waitForSessionIdleGo sessionID timeoutMs pollIntervalMs start times statusRaw fuel (k + 1)
    else
      some ⟨.error (timeoutMsg sessionID), k, k⟩

/-- Model of the source's `waitForSessionIdle`, from its first condition
check. -/
def waitForSessionIdle (sessionID : List Char) (timeoutMs pollIntervalMs start : Nat)
    (times : Nat → Nat) (statusRaw : Nat → Json) (fuel : Nat) : Option WaitTrace :=
  waitForSessionIdleGo sessionID timeoutMs pollIntervalMs start times statusRaw fuel 0

/-- A poll whose status call succeeds and finds the target session present
but not idle: the loop sleeps and retries after it. -/
def pollBusy (sessionID : List Char) (statusRaw : Nat → Json) (j : Nat) : Prop :=
  ∃ m, unwrap (statusRaw j) ("session.status".toList) = .ok m ∧
    statusOptTruthy (jsField m sessionID) = true ∧
    isIdleStatus (jsField m sessionID) = false

theorem waitGo_advance (sessionID : List Char) (timeoutMs pollIntervalMs start : Nat)
    (times : Nat → Nat) (statusRaw : Nat → Json) :
    ∀ (d j fuel : Nat),
    (∀ i, j ≤ i → i < j + d →
      pollBusy sessionID statusRaw i ∧ (times i : Int) - (start : Int) < (timeoutMs : Int)) →
    d ≤ fuel →
    waitForSessionIdleGo sessionID timeoutMs pollIntervalMs start times statusRaw fuel j
      = waitForSessionIdleGo sessionID timeoutMs pollIntervalMs start times statusRaw
          (fuel - d) (j + d) := by
  intro d
  induction d with
  | zero => intro j fuel _ _; simp
  | succ d ih =>
    intro j fuel hbusy hfuel
    obtain ⟨fuel2, rfl⟩ : ∃ f2, fuel = f2 + 1 := by
      cases fuel with
      | zero => omega
      | succ f => exact ⟨f, rfl⟩
    obtain ⟨⟨m, hm, htr, hni⟩, helapsed⟩ := hbusy j (le_refl j) (by omega)
    rw [waitForSessionIdleGo, if_pos helapsed, hm]
    simp only [htr, Bool.not_true, Bool.false_eq_true, if_false, hni]
    rw [show fuel2 + 1 - (d + 1) = fuel2 - d by omega,
      show j + (d + 1) = (j + 1) + d by omega]
    exact ih (j + 1) fuel2 (fun i h1 h2 => hbusy i (by omega) (by omega)) (by omega)

/-- Claim C4: for every sequence of status results, if the first `k` polls
find the session present but not idle within the time bound, then — all
within any sufficient fuel — a poll whose status map lacks a (truthy) entry
for the session fails immediately with `SessionMissing` listing the known
session ids, with no further sleep or retry and without waiting for the
timeout; a poll that finds it idle returns successfully; and if the elapsed
time reading reaches `timeoutMs` at the k-th check, the loop fails with
`Timeout` after exactly `k` status calls. -/
theorem waitForSessionIdle_spec (sessionID : List Char)
    (timeoutMs pollIntervalMs start : Nat) (times : Nat → Nat) (statusRaw : Nat → Json)
    (fuel k : Nat)
    (hbusy : ∀ i, i < k →
      pollBusy sessionID statusRaw i ∧ (times i : Int) - (start : Int) < (timeoutMs : Int))
    (hfuel : k < fuel) :
    ((times k : Int) - (start : Int) < (timeoutMs : Int) →
      ∀ m, unwrap (statusRaw k) ("session.status".toList) = .ok m →
      statusOptTruthy (jsField m sessionID) = false →
      waitForSessionIdle sessionID timeoutMs pollIntervalMs start times statusRaw fuel
        = some ⟨.error (sessionMissingMsg sessionID
            (if jsTruthy m then jsObjectKeys m else [])), k + 1, k⟩) ∧
    ((times k : Int) - (start : Int) < (timeoutMs : Int) →
      ∀ m, unwrap (statusRaw k) ("session.status".toList) = .ok m →
      statusOptTruthy (jsField m sessionID) = true →
      isIdleStatus (jsField m sessionID) = true →
      waitForSessionIdle sessionID timeoutMs pollIntervalMs start times statusRaw fuel
        = some ⟨.ok (), k + 1, k⟩) ∧
    ((timeoutMs : Int) ≤ (times k : Int) - (start : Int) →
      waitForSessionIdle sessionID timeoutMs pollIntervalMs start times statusRaw fuel
        = some ⟨.error (timeoutMsg sessionID), k, k⟩) := by
  have hadv := waitGo_advance sessionID timeoutMs pollIntervalMs start times statusRaw
    k 0 fuel (fun i h1 h2 => hbusy i (by omega)) (by omega)
  obtain ⟨f2, hf2⟩ : ∃ f2, fuel - k = f2 + 1 := by
    refine ⟨fuel - k - 1, ?_⟩
    omega
  rw [waitForSessionIdle, hadv, hf2, show (0 + k) = k by omega]
  refine ⟨?_, ?_, ?_⟩
  · intro helapsed m hm hmissing
    rw [waitForSessionIdleGo, if_pos helapsed, hm]
    simp [hmissing]
  · intro helapsed m hm htruthy hidle
    rw [waitForSessionIdleGo, if_pos helapsed, hm]
    simp [htruthy, hidle]
  · intro hpast
    rw [waitForSessionIdleGo, if_neg (by omega)]

/-- Witness for C4: a status map that never contains the target session makes
the first poll fail with `SessionMissing` (known sessions: none) with no
sleeps, long before the timeout. -/
theorem waitForSessionIdle_spec_witness :
    waitForSessionIdle ("s1".toList) 7200000 2000 0 (fun k => 10 * k)
      (fun _ => .obj [("data".toList, .obj [])]) 5
      = some ⟨.error (sessionMissingMsg ("s1".toList) []), 1, 0⟩ := by
  have h := (waitForSessionIdle_spec ("s1".toList) 7200000 2000 0 (fun k => 10 * k)
    (fun _ => .obj [("data".toList, .obj [])]) 5 0
    (fun i hi => absurd hi (by omega)) (by omega)).1 (by decide) (.obj []) rfl rfl
  exact h.trans (by rfl)

/-! ## JSON.parse model (parsing) -/

/-- JSON insignificant whitespace (space, tab, line feed, carriage return). -/
def jsonWsChar (c : Char) : Bool := c = ' ' || c = '\t' || c = '\n' || c = '\r'

/-- Skip insignificant whitespace. -/
def jsonSkipWs (cs : List Char) : List Char := cs.dropWhile jsonWsChar

/-- The character denoted by a single-character escape. -/
def unescapeChar (c : Char) : Option Char :=
  if c = '"' then some '"'
  else if c = '\\' then some '\\'
  else if c = '/' then some '/'
  else if c = 'b' then some (Char.ofNat 8)
  else if c = 'f' then some (Char.ofNat 12)
  else if c = 'n' then some '\n'
  else if c = 'r' then some '\r'
  else if c = 't' then some '\t'
  else none

/-- Value of a hexadecimal digit. -/
def hexDigitVal (c : Char) : Option Nat :=
  let n := c.toNat
  if 0x30 ≤ n ∧ n ≤ 0x39 then some (n - 0x30)
  else if 0x61 ≤ n ∧ n ≤ 0x66 then some (n - 0x61 + 10)
  else if 0x41 ≤ n ∧ n ≤ 0x46 then some (n - 0x41 + 10)
  else none

/-- Lex a JSON string body after the opening quote: escapes are decoded, raw
control characters are rejected, the closing quote ends the string. -/
def jsonLexString (acc : List Char) : List Char → Option (List Char × List Char)
  | [] => none
  | c :: rest =>
    if c = '"' then some (acc.reverse, rest)
    else if c = '\\' then
      match rest with
      | [] => none
      | e :: rest2 =>
        if e = 'u' then
          match rest2 with
          | a :: b :: c2 :: d :: rest3 =>
            match hexDigitVal a, hexDigitVal b, hexDigitVal c2, hexDigitVal d with
            | some va, some vb, some vc, some vd =>
              jsonLexString (Char.ofNat (((va * 16 + vb) * 16 + vc) * 16 + vd) :: acc) rest3
            | _, _, _, _ => none
          | _ => none
        else
          match unescapeChar e with
          | some ch => jsonLexString (ch :: acc) rest2
          | none => none
    else if c.toNat < 0x20 then none
    else jsonLexString (c :: acc) rest

/-- Lex the integer part of a JSON number: `0`, or a nonzero digit followed
by a digit run (leading zeros are not part of the grammar). -/
def jsonLexInt : List Char → Option (List Char × List Char)
  | c :: rest =>
    if c = '0' then some (['0'], rest)
    else if isDigitChar c then
      some (c :: rest.takeWhile isDigitChar, rest.dropWhile isDigitChar)
    else none
  | [] => none

/-- Lex a JSON number into exact mantissa/exponent form. -/
def jsonNumSign : List Char → Bool × List Char
  | c :: t => if c = '-' then (true, t) else (false, c :: t)
  | [] => (false, [])

/-- The optional fraction `.digits`: the digits when the dot is present (a
dot without digits fails the whole number), nothing otherwise. -/
def jsonNumFrac : List Char → Option (List Char × List Char)
  | c :: r =>
    if c = '.' then
      if (r.takeWhile isDigitChar).isEmpty then none
      else some (r.takeWhile isDigitChar, r.dropWhile isDigitChar)
    else some ([], c :: r)
  | [] => some ([], [])

/-- The optional exponent `e|E sign? digits`: its signed value when present
(an exponent marker without digits fails the whole number), zero otherwise. -/
def jsonExpSign : List Char → Int × List Char
  | x :: r2 => if x = '+' then (1, r2) else if x = '-' then (-1, r2) else (1, x :: r2)
  | [] => (1, [])

def jsonNumExp : List Char → Option (Int × List Char)
  | c :: r =>
    if c = 'e' ∨ c = 'E' then
      let signed := jsonExpSign r
      if (signed.2.takeWhile isDigitChar).isEmpty then none
      else some (signed.1 * (digitsVal (signed.2.takeWhile isDigitChar) : Int),
        signed.2.dropWhile isDigitChar)
    else some (0, c :: r)
  | [] => some (0, [])

def jsonLexNum (cs : List Char) : Option ((Int × Int) × List Char) :=
  let signSplit := jsonNumSign cs
  match jsonLexInt signSplit.2 with
  | none => none
  | some (intDs, cs2) =>
    match jsonNumFrac cs2 with
    | none => none
    | some (fracDs, cs3) =>
      match jsonNumExp cs3 with
      | none => none
      | some (expVal, cs4) =>
        let mant : Int := (if signSplit.1 then -1 else 1) * (digitsVal (intDs ++ fracDs) : Int)
        some ((mant, expVal - (fracDs.length : Int)), cs4)

mutual

/-- Parse one JSON value, returning it with the unconsumed remainder. The
fuel only bounds recursion depth; it never cuts a successful parse short
when instantiated generously (see `jsonParseText`). -/
def jsonParseValue : Nat → List Char → Option (Json × List Char)
  | 0, _ => none
  | fuel + 1, cs =>
    match jsonSkipWs cs with
    | [] => none
    | c :: r =>
      if c = 'n' then
        match r with
        | 'u' :: ('l' :: ('l' :: r2)) => some (.null, r2)
        | _ => none
      else if c = 't' then
        match r with
        | 'r' :: ('u' :: ('e' :: r2)) => some (.bool true, r2)
        | _ => none
      else if c = 'f' then
        match r with
        | 'a' :: ('l' :: ('s' :: ('e' :: r2))) => some (.bool false, r2)
        | _ => none
      else if c = '"' then
        match jsonLexString [] r with
        | some (s, r2) => some (.str s, r2)
        | none => none
      else if c = '[' then
        match jsonSkipWs r with
        | [] => none
        | c2 :: r2 =>
          if c2 = ']' then some (.arr [], r2)
          else
            match jsonParseItems fuel r with
            | some (es, r3) => some (.arr es, r3)
            | none => none
      else if c = '{' then
        match jsonSkipWs r with
        | [] => none
        | c2 :: r2 =>
          if c2 = '}' then some (.obj [], r2)
          else
            match jsonParsePairs fuel r with
            | some (ms, r3) => some (.obj ms, r3)
            | none => none
      else if c = '-' || isDigitChar c then
        match jsonLexNum (c :: r) with
        | some (ne, r2) => some (.num ne.1 ne.2, r2)
        | none => none
      else none

/-- Parse one or more comma-separated array elements up to the closing
bracket. -/
def jsonParseItems : Nat → List Char → Option (List Json × List Char)
  | 0, _ => none
  | fuel + 1, cs =>
    match jsonParseValue fuel cs with
    | none => none
    | some (v, r) =>
      match jsonSkipWs r with
      | [] => none
      | c :: r2 =>
        if c = ',' then
          match jsonParseItems fuel r2 with
          | some (vs, r3) => some (v :: vs, r3)
          | none => none
        else if c = ']' then some ([v], r2)
        else none

/-- Parse one or more comma-separated object members up to the closing
brace. -/
def jsonParsePairs : Nat → List Char → Option (List (List Char × Json) × List Char)
  | 0, _ => none
  | fuel + 1, cs =>
    match jsonSkipWs cs with
    | [] => none
    | c :: r =>
      if c = '"' then
        match jsonLexString [] r with
        | none => none
        | some (k, r1) =>
          match jsonSkipWs r1 with
          | [] => none
          | c2 :: r2 =>
            if c2 = ':' then
              match jsonParseValue fuel r2 with
              | none => none
              | some (v, r3) =>
                match jsonSkipWs r3 with
                | [] => none
                | c3 :: r4 =>
                  if c3 = ',' then
                    match jsonParsePairs fuel r4 with
                    | some (ms, r5) => some ((k, v) :: ms, r5)
                    | none => none
                  else if c3 = '}' then some ([(k, v)], r4)
                  else none
            else none
      else none

end

/-- Model of `JSON.parse` on a whole string: parse one value and insist the
remainder is whitespace. The fuel `2 * length + 2` dominates every possible
recursion (each two fuel units consume at least one input character). -/
def jsonParseText (cs : List Char) : Option Json :=
  match jsonParseValue (2 * cs.length + 2) cs with
  | some (v, r) => if (jsonSkipWs r).isEmpty then some v else none
  | none => none

/-! ## Claims C2 and C5: extractReviewJson -/

/-- One candidate test at position `i` of the source's scan loop: slice to
the end, trim, `JSON.parse`, accept an object carrying a `findings` key
(`parsed && typeof parsed === "object" && "findings" in parsed`). -/
def reviewCandidate (trimmed : List Char) (i : Nat) : Option Json :=
  match jsonParseText (jsTrim (trimmed.drop i)) with
  | some v => if jsHasKey v ("findings".toList) then some v else none
  | none => none

/-- JavaScript `lastIndexOf("{", i)` with the from-index already clamped to
be nonnegative: the largest position `j ≤ i` holding a brace. -/
def lastBrace (cs : List Char) : Nat → Option Nat
  | 0 => if cs[0]? = some '{' then some 0 else none
  | i + 1 => if cs[i + 1]? = some '{' then some (i + 1) else lastBrace cs i

/-- Outcome of `extractReviewJson`: a parsed result, the `ParseFailure` or
`EmptyOutput` throw, or non-termination of the scan loop. -/
inductive ExtractOutcome where
  | ok (v : Json)
  | parseFailure
  | emptyOutput
  | diverges

/-- The source's scan loop from candidate position `i`. On failure it moves
to `trimmed.lastIndexOf("{", i - 1)`; JavaScript clamps the from-index `-1`
(when `i = 0`) back to `0`, which the natural-number subtraction mirrors, so
when the next position does not decrease the real loop repeats the same
iteration forever — modelled as `diverges`. -/
def extractScan (trimmed : List Char) (i : Nat) : ExtractOutcome :=
  match reviewCandidate trimmed i with
  | some v => .ok v
  | none =>
    match lastBrace trimmed (i - 1) with
    | none => .parseFailure
    | some j => if h : j < i then extractScan trimmed j else .diverges
termination_by i
decreasing_by exact h

/-- Model of the source's `extractReviewJson`: trim, throw `EmptyOutput` on
an empty result, then scan brace positions from the rightmost. -/
def extractReviewJson (output : List Char) : ExtractOutcome :=
  let trimmed := jsTrim output
  if trimmed.isEmpty then .emptyOutput
  else
    match lastBrace trimmed (trimmed.length - 1) with
    | none => .parseFailure
    | some i => extractScan trimmed i

/-- Claim C5, the code's divergence: on the input `"{"` — whose only suffix
beginning at a brace does not parse, so the claim requires `ParseFailure` —
the scan loop never terminates: at position 0 the failed candidate recomputes
`lastIndexOf("{", -1)`, which JavaScript clamps to position 0 again. On an
input without braces the `ParseFailure` path does fire, and empty input still
reports `EmptyOutput` first. -/
theorem extractReviewJson_bug :
    extractReviewJson (['{'] : List Char) = .diverges ∧
    reviewCandidate (jsTrim (['{'] : List Char)) 0 = none ∧
    extractReviewJson ("no braces here".toList) = .parseFailure ∧
    extractReviewJson ("   ".toList) = .emptyOutput := by
  have h1 : extractScan ['{'] 0 = .diverges := by
    unfold extractScan
    simp only [show reviewCandidate ['{'] 0 = none from rfl,
      show lastBrace ['{'] (0 - 1) = some 0 from rfl]
    simp
  exact ⟨(show extractReviewJson (['{'] : List Char) = extractScan ['{'] 0 from rfl).trans h1,
    rfl, rfl, rfl⟩

/-! ## Round-trip of the codec: digits and numbers -/

/-- A remainder that cannot extend a rendered number: empty or headed by a
character that is no digit and none of the number continuations. Every JSON
structural delimiter qualifies. -/
def numDelim (cs : List Char) : Bool :=
  match cs with
  | c :: _ => !(isDigitChar c || c = '.' || c = 'e' || c = 'E')
  | [] => true

theorem digitChar_spec (k : Nat) (h : k < 10) :
    isDigitChar (Char.ofNat ('0'.toNat + k)) = true ∧
    (Char.ofNat ('0'.toNat + k)).toNat - '0'.toNat = k ∧
    (k ≠ 0 → Char.ofNat ('0'.toNat + k) ≠ '0') := by
  interval_cases k <;> refine ⟨by decide, by decide, ?_⟩ <;> intro hk <;> simp_all <;> decide

theorem natDigits_facts (n : Nat) :
    (∀ c ∈ natDigits n, isDigitChar c = true) ∧ natDigits n ≠ [] ∧
    digitsVal (natDigits n) = n := by
  induction n using Nat.strongRecOn with
  | ind n ihn =>
    by_cases hten : n < 10
    · have hn := digitChar_spec n hten
      rw [natDigits, if_pos hten]
      refine ⟨?_, by simp, ?_⟩
      · intro c hc
        rw [List.mem_singleton] at hc
        exact hc ▸ hn.1
      · show digitsVal [Char.ofNat ('0'.toNat + n)] = n
        simp only [digitsVal, List.foldl_cons, List.foldl_nil]
        rw [Nat.zero_mul, Nat.zero_add, hn.2.1]
    · have hdiv : n / 10 < n := Nat.div_lt_self (by omega) (by omega)
      have hmod := digitChar_spec (n % 10) (Nat.mod_lt _ (by omega))
      obtain ⟨hall, hne, hval⟩ := ihn (n / 10) hdiv
      rw [natDigits, if_neg hten]
      refine ⟨?_, by simp, ?_⟩
      · intro c hc
        rcases List.mem_append.mp hc with h1 | h1
        · exact hall c h1
        · rw [List.mem_singleton] at h1
          exact h1 ▸ hmod.1
      · rw [digitsVal, List.foldl_append]
        have : (natDigits (n / 10)).foldl (fun a c => a * 10 + (c.toNat - '0'.toNat)) 0
            = n / 10 := hval
        simp only [List.foldl_cons, List.foldl_nil, this, hmod.2.1]
        omega

theorem natDigits_head (n : Nat) :
    ∃ c t, natDigits n = c :: t ∧ isDigitChar c = true ∧ (1 ≤ n → c ≠ '0') := by
  induction n using Nat.strongRecOn with
  | ind n ihn =>
    by_cases hten : n < 10
    · have hn := digitChar_spec n hten
      rw [natDigits, if_pos hten]
      exact ⟨_, [], rfl, hn.1, fun h1 => hn.2.2 (by omega)⟩
    · have hdiv : n / 10 < n := Nat.div_lt_self (by omega) (by omega)
      obtain ⟨c, t, heq, hd, hnz⟩ := ihn (n / 10) hdiv
      rw [natDigits, if_neg hten, heq]
      exact ⟨c, t ++ [Char.ofNat ('0'.toNat + n % 10)], rfl, hd,
        fun _ => hnz (by omega)⟩

/-- A remainder that cannot extend a digit run. -/
def noDigitHead : List Char → Bool
  | [] => true
  | c :: _ => !isDigitChar c

theorem numDelim_noDigitHead (rest : List Char) (h : numDelim rest = true) :
    noDigitHead rest = true := by
  cases rest with
  | nil => rfl
  | cons c t =>
    rw [numDelim] at h
    rw [noDigitHead]
    rcases hd : isDigitChar c
    · rfl
    · rw [hd] at h
      simp at h

theorem takeWhile_digits_append (ds rest : List Char)
    (hds : ∀ c ∈ ds, isDigitChar c = true) (hrest : noDigitHead rest = true) :
    (ds ++ rest).takeWhile isDigitChar = ds ∧ (ds ++ rest).dropWhile isDigitChar = rest := by
  induction ds with
  | nil =>
    cases rest with
    | nil => exact ⟨rfl, rfl⟩
    | cons c t =>
      rw [noDigitHead] at hrest
      have hc : isDigitChar c = false := by
        rcases h : isDigitChar c
        · rfl
        · rw [h] at hrest
          simp at hrest
      simp [List.takeWhile_cons, List.dropWhile_cons, hc]
  | cons c t ih =>
    have hc : isDigitChar c = true := hds c (by simp)
    obtain ⟨h1, h2⟩ := ih (fun x hx => hds x (by simp [hx]))
    simp [List.takeWhile_cons, List.dropWhile_cons, hc, h1, h2]

theorem numDelim_head_facts (c : Char) (t : List Char) (h : numDelim (c :: t) = true) :
    isDigitChar c = false ∧ c ≠ '.' ∧ c ≠ 'e' ∧ c ≠ 'E' := by
  rw [numDelim] at h
  simp only [Bool.not_eq_eq_eq_not, Bool.not_true, Bool.or_eq_false_iff,
    decide_eq_false_iff_not] at h
  exact ⟨h.1.1.1, h.1.1.2, h.1.2, h.2⟩

theorem jsonLexInt_digits (n : Nat) (rest : List Char) (hrest : noDigitHead rest = true) :
    jsonLexInt (natDigits n ++ rest) = some (natDigits n, rest) := by
  obtain ⟨c, t, heq, hd, hnz⟩ := natDigits_head n
  obtain ⟨hall, _, _⟩ := natDigits_facts n
  have htall : ∀ x ∈ t, isDigitChar x = true := by
    intro x hx
    exact hall x (by rw [heq]; exact List.mem_cons_of_mem _ hx)
  obtain ⟨htake, hdrop⟩ := takeWhile_digits_append t rest htall hrest
  by_cases hzero : n < 1
  · have hn0 : n = 0 := by omega
    subst hn0
    have h0 : natDigits 0 = ['0'] := by
      rw [natDigits, if_pos (show (0 : Nat) < 10 by omega)]
      decide
    rw [h0]
    rfl
  · have hcne : c ≠ '0' := hnz (by omega)
    rw [heq, List.cons_append]
    rw [show jsonLexInt (c :: (t ++ rest))
        = (if c = '0' then some (['0'], t ++ rest)
           else if isDigitChar c then
             some (c :: (t ++ rest).takeWhile isDigitChar, (t ++ rest).dropWhile isDigitChar)
           else none) from rfl]
    rw [if_neg hcne, if_pos hd, htake, hdrop]

theorem jsonWsChar_cases (c : Char) (h : jsonWsChar c = true) :
    c = '\r' ∨ c = '\n' ∨ c = '\t' ∨ c = ' ' := by
  simp [jsonWsChar] at h
  tauto

theorem digit_ne_all (c : Char) (h : isDigitChar c = true) :
    c ≠ '-' ∧ c ≠ '+' ∧ c ≠ '.' ∧ c ≠ 'e' ∧ c ≠ 'E' ∧ c ≠ '"' ∧ c ≠ 'n' ∧ c ≠ 't' ∧
    c ≠ 'f' ∧ c ≠ '\\' ∧ c ≠ '[' ∧ c ≠ ']' ∧ c ≠ '{' ∧ c ≠ '}' ∧ c ≠ ',' ∧ c ≠ ':' ∧
    jsonWsChar c = false := by
  have hws : jsonWsChar c = false := by
    rcases hw : jsonWsChar c
    · rfl
    · have hcontra := jsonWsChar_cases c hw
      rcases hcontra with rfl | rfl | rfl | rfl <;> revert h <;> decide
  repeat' apply And.intro
  all_goals first
    | exact hws
    | (rintro rfl; revert h; decide)

theorem intChars_neg (i : Int) (hi : i < 0) : intChars i = '-' :: natDigits i.natAbs := by
  rw [intChars, if_pos hi]

theorem intChars_nonneg (i : Int) (hi : ¬i < 0) : intChars i = natDigits i.natAbs := by
  rw [intChars, if_neg hi]

theorem jsonNumFrac_skip (cs : List Char) (h : ∀ c t, cs = c :: t → c ≠ '.') :
    jsonNumFrac cs = some ([], cs) := by
  cases cs with
  | nil => rfl
  | cons c t => rw [jsonNumFrac, if_neg (h c t rfl)]

theorem jsonNumExp_skip (cs : List Char) (h : ∀ c t, cs = c :: t → c ≠ 'e' ∧ c ≠ 'E') :
    jsonNumExp cs = some (0, cs) := by
  cases cs with
  | nil => rfl
  | cons c t =>
    rw [jsonNumExp, if_neg]
    rintro (rfl | rfl)
    · exact (h _ t rfl).1 rfl
    · exact (h _ t rfl).2 rfl

theorem jsonNumExp_reads (e : Int) (rest : List Char) (hrest : numDelim rest = true) :
    jsonNumExp ('e' :: (intChars e ++ rest)) = some (e, rest) := by
  have hnd := numDelim_noDigitHead rest hrest
  obtain ⟨htake, hdrop⟩ := takeWhile_digits_append (natDigits e.natAbs) rest
    (natDigits_facts e.natAbs).1 hnd
  have hne := (natDigits_facts e.natAbs).2.1
  have hval := (natDigits_facts e.natAbs).2.2
  have hie : (natDigits e.natAbs).isEmpty = false := by
    cases hne2 : natDigits e.natAbs with
    | nil => exact absurd hne2 hne
    | cons a b => rfl
  rw [jsonNumExp, if_pos (Or.inl rfl)]
  by_cases hneg : e < 0
  · rw [intChars_neg e hneg, List.cons_append]
    have hsign : jsonExpSign ('-' :: (natDigits e.natAbs ++ rest))
        = (-1, natDigits e.natAbs ++ rest) := by
      rw [jsonExpSign, if_neg (by decide), if_pos rfl]
    simp only [hsign, htake, hdrop, hie, Bool.false_eq_true, if_false, hval,
      Option.some.injEq, Prod.mk.injEq]
    exact ⟨by omega, by trivial⟩
  · obtain ⟨c0, t0, heq0, hd0, _⟩ := natDigits_head e.natAbs
    obtain ⟨hm, hp, _⟩ := digit_ne_all c0 hd0
    have hsign : jsonExpSign (natDigits e.natAbs ++ rest)
        = (1, natDigits e.natAbs ++ rest) := by
      rw [heq0, List.cons_append, jsonExpSign, if_neg hp, if_neg hm]
    rw [intChars_nonneg e hneg]
    simp only [hsign, htake, hdrop, hie, Bool.false_eq_true, if_false, hval,
      Option.some.injEq, Prod.mk.injEq]
    exact ⟨by omega, by trivial⟩

theorem jsonLexNum_render (m e : Int) (rest : List Char) (hrest : numDelim rest = true) :
    jsonLexNum (renderNum m e ++ rest) = some ((m, e), rest) := by
  have hrender : renderNum m e ++ rest
      = intChars m ++ ((if e = 0 then ([] : List Char) else 'e' :: intChars e) ++ rest) := by
    rw [renderNum, List.append_assoc]
  set tail := (if e = 0 then ([] : List Char) else 'e' :: intChars e) ++ rest with htail
  have htailnd : noDigitHead tail = true := by
    by_cases he : e = 0
    · rw [htail, if_pos he, List.nil_append]
      exact numDelim_noDigitHead rest hrest
    · rw [htail, if_neg he, List.cons_append]
      rfl
  have hfrac : jsonNumFrac tail = some ([], tail) := by
    refine jsonNumFrac_skip tail ?_
    intro c t hct
    by_cases he : e = 0
    · rw [htail, if_pos he, List.nil_append] at hct
      exact (numDelim_head_facts c t (hct ▸ hrest)).2.1
    · rw [htail, if_neg he, List.cons_append, List.cons.injEq] at hct
      rw [← hct.1]
      decide
  have hexp : jsonNumExp tail = some (e, rest) := by
    by_cases he : e = 0
    · rw [htail, if_pos he, List.nil_append, he]
      refine jsonNumExp_skip rest ?_
      intro c t hct
      obtain ⟨_, _, hce, hcE⟩ := numDelim_head_facts c t (hct ▸ hrest)
      exact ⟨hce, hcE⟩
    · rw [htail, if_neg he, List.cons_append]
      exact jsonNumExp_reads e rest hrest
  have hlexint : jsonLexInt (natDigits m.natAbs ++ tail) = some (natDigits m.natAbs, tail) :=
    jsonLexInt_digits m.natAbs tail htailnd
  have hvalm := (natDigits_facts m.natAbs).2.2
  rw [hrender]
  by_cases hm : m < 0
  · rw [intChars_neg m hm, List.cons_append]
    have hsign : jsonNumSign ('-' :: (natDigits m.natAbs ++ tail))
        = (true, natDigits m.natAbs ++ tail) := by
      rw [jsonNumSign, if_pos rfl]
    simp only [jsonLexNum, hsign, hlexint, hfrac, hexp, List.append_nil, hvalm,
      Option.some.injEq, Prod.mk.injEq]
    refine ⟨⟨?_, ?_⟩, trivial⟩
    · show (-1 : Int) * (m.natAbs : Int) = m
      omega
    · show e - (([] : List Json).length : Int) = e
      simp
  · obtain ⟨c0, t0, heq0, hd0, _⟩ := natDigits_head m.natAbs
    obtain ⟨hminus, _⟩ := digit_ne_all c0 hd0
    have hsign : jsonNumSign (natDigits m.natAbs ++ tail)
        = (false, natDigits m.natAbs ++ tail) := by
      rw [heq0, List.cons_append, jsonNumSign, if_neg hminus]
    rw [intChars_nonneg m hm]
    simp only [jsonLexNum, hsign, hlexint, hfrac, hexp, List.append_nil, hvalm,
      Option.some.injEq, Prod.mk.injEq]
    refine ⟨⟨?_, ?_⟩, trivial⟩
    · show (1 : Int) * (m.natAbs : Int) = m
      omega
    · show e - (([] : List Json).length : Int) = e
      simp

/-! ## Round-trip of the codec: strings -/

theorem hexVal_renderHexDigit (d : Nat) (h : d < 16) :
    hexDigitVal (renderHexDigit d) = some d := by
  interval_cases d <;> decide

theorem jsonLexString_escape (c : Char) (acc rest : List Char) :
    jsonLexString acc (escapeChar c ++ rest) = jsonLexString (c :: acc) rest := by
  by_cases h1 : c = '"'
  · subst h1
    rw [show escapeChar '"' ++ rest = '\\' :: '"' :: rest from rfl]
    conv_lhs => rw [jsonLexString.eq_def]
    simp [unescapeChar]
  by_cases h2 : c = '\\'
  · subst h2
    rw [show escapeChar '\\' ++ rest = '\\' :: '\\' :: rest from rfl]
    conv_lhs => rw [jsonLexString.eq_def]
    simp [unescapeChar]
  by_cases h3 : c = '\n'
  · subst h3
    rw [show escapeChar '\n' ++ rest = '\\' :: 'n' :: rest from rfl]
    conv_lhs => rw [jsonLexString.eq_def]
    simp [unescapeChar]
  by_cases h4 : c = '\r'
  · subst h4
    rw [show escapeChar '\r' ++ rest = '\\' :: 'r' :: rest from rfl]
    conv_lhs => rw [jsonLexString.eq_def]
    simp [unescapeChar]
  by_cases h5 : c = '\t'
  · subst h5
    rw [show escapeChar '\t' ++ rest = '\\' :: 't' :: rest from rfl]
    conv_lhs => rw [jsonLexString.eq_def]
    simp [unescapeChar]
  by_cases h6 : c = Char.ofNat 8
  · subst h6
    rw [show escapeChar (Char.ofNat 8) ++ rest = '\\' :: 'b' :: rest from rfl]
    conv_lhs => rw [jsonLexString.eq_def]
    simp [unescapeChar]
  by_cases h7 : c = Char.ofNat 12
  · subst h7
    rw [show escapeChar (Char.ofNat 12) ++ rest = '\\' :: 'f' :: rest from rfl]
    conv_lhs => rw [jsonLexString.eq_def]
    simp [unescapeChar]
  by_cases h8 : c.toNat < 0x20
  · rw [escapeChar, if_neg h1, if_neg h2, if_neg h3, if_neg h4, if_neg h5, if_neg h6,
      if_neg h7, if_pos h8]
    have hv1 : hexDigitVal (renderHexDigit (c.toNat / 16)) = some (c.toNat / 16) :=
      hexVal_renderHexDigit (c.toNat / 16) (by omega)
    have hv2 : hexDigitVal (renderHexDigit (c.toNat % 16)) = some (c.toNat % 16) :=
      hexVal_renderHexDigit (c.toNat % 16) (by omega)
    rw [show (['\\', 'u', '0', '0', renderHexDigit (c.toNat / 16),
        renderHexDigit (c.toNat % 16)] ++ rest)
      = '\\' :: 'u' :: '0' :: '0' :: renderHexDigit (c.toNat / 16)
        :: renderHexDigit (c.toNat % 16) :: rest from rfl]
    conv_lhs => rw [jsonLexString.eq_def]
    simp only [hv1, hv2, show hexDigitVal '0' = some 0 from by decide]
    norm_num
    rw [if_neg (show ('\\' : Char) ≠ '"' by decide)]
    congr 1
    rw [List.cons.injEq]
    refine ⟨?_, rfl⟩
    conv_rhs => rw [← Char.ofNat_toNat c]
    congr 1
    omega
  · rw [escapeChar, if_neg h1, if_neg h2, if_neg h3, if_neg h4, if_neg h5, if_neg h6,
      if_neg h7, if_neg h8]
    rw [List.singleton_append]
    conv_lhs => rw [jsonLexString.eq_def]
    split
    · rename_i heq
      exact absurd heq (by simp)
    · rename_i c9 rest9 heq
      rw [List.cons.injEq] at heq
      obtain ⟨hc9, hr9⟩ := heq
      subst hc9
      subst hr9
      rw [if_neg h1, if_neg h2, if_neg h8]

theorem jsonLexString_render (s : List Char) : ∀ (acc rest : List Char),
    jsonLexString acc (s.flatMap escapeChar ++ ('"' :: rest)) = some (acc.reverse ++ s, rest) := by
  induction s with
  | nil =>
    intro acc rest
    rw [List.flatMap_nil, List.nil_append]
    conv_lhs => rw [jsonLexString.eq_def]
    simp
  | cons c s2 ih =>
    intro acc rest
    rw [List.flatMap_cons, List.append_assoc, jsonLexString_escape, ih]
    simp

theorem jsonSkipWs_cons (c : Char) (t : List Char) (h : jsonWsChar c = false) :
    jsonSkipWs (c :: t) = c :: t := by
  rw [jsonSkipWs]
  exact dropWhile_head_false _ _ _ h

/-! ## Round-trip of the codec: values -/

theorem renderJson_null_eq : renderJson Json.null = ['n', 'u', 'l', 'l'] := by
  rw [renderJson]
  rfl

theorem renderJson_true_eq : renderJson (Json.bool true) = ['t', 'r', 'u', 'e'] := by
  rw [renderJson]
  rfl

theorem renderJson_false_eq : renderJson (Json.bool false) = ['f', 'a', 'l', 's', 'e'] := by
  rw [renderJson]
  rfl

theorem renderJson_num_eq (m e : Int) : renderJson (.num m e) = renderNum m e := by
  rw [renderJson]

theorem renderJson_str_eq (s : List Char) : renderJson (.str s) = renderStr s := by
  rw [renderJson]

theorem renderJson_arr_eq (items : List Json) :
    renderJson (.arr items) = '[' :: (renderItems items ++ [']']) := by
  rw [renderJson]

theorem renderJson_obj_eq (members : List (List Char × Json)) :
    renderJson (.obj members) = '{' :: (renderMembers members ++ ['}']) := by
  rw [renderJson]

theorem renderItems_nil_eq : renderItems [] = [] := by rw [renderItems]

theorem renderItems_single_eq (v : Json) : renderItems [v] = renderJson v := by
  rw [renderItems]

theorem renderItems_cons_eq (v w : Json) (ws : List Json) :
    renderItems (v :: w :: ws) = renderJson v ++ ',' :: renderItems (w :: ws) := by
  rw [renderItems]
  simp

theorem renderMembers_single_eq (k : List Char) (v : Json) :
    renderMembers [(k, v)] = renderStr k ++ ':' :: renderJson v := by
  rw [renderMembers]

theorem renderMembers_cons_eq (k : List Char) (v : Json) (p : List Char × Json)
    (ms : List (List Char × Json)) :
    renderMembers ((k, v) :: p :: ms)
      = renderStr k ++ ':' :: (renderJson v ++ ',' :: renderMembers (p :: ms)) := by
  rw [renderMembers]
  simp

theorem renderJson_head (v : Json) :
    ∃ c t, renderJson v = c :: t ∧ jsonWsChar c = false ∧ c ≠ ']' ∧ c ≠ '}' ∧ c ≠ ',' ∧
      (c = '{' → ∃ ms, v = .obj ms) := by
  cases v with
  | null =>
    exact ⟨'n', _, renderJson_null_eq, by decide, by simp, by simp, by simp,
      fun h => absurd h (by decide)⟩
  | bool b =>
    cases b with
    | true =>
      exact ⟨'t', _, renderJson_true_eq, by decide, by simp, by simp, by simp,
        fun h => absurd h (by decide)⟩
    | false =>
      exact ⟨'f', _, renderJson_false_eq, by decide, by simp, by simp, by simp,
        fun h => absurd h (by decide)⟩
  | str s =>
    exact ⟨'"', _, by rw [renderJson_str_eq, renderStr], by decide, by simp, by simp,
      by simp, fun h => absurd h (by decide)⟩
  | arr items =>
    exact ⟨'[', _, renderJson_arr_eq items, by decide, by simp, by simp, by simp,
      fun h => absurd h (by decide)⟩
  | obj members =>
    exact ⟨'{', _, renderJson_obj_eq members, by decide, by simp, by simp, by simp,
      fun _ => ⟨members, rfl⟩⟩
  | num m e =>
    by_cases hm : m < 0
    · refine ⟨'-', natDigits m.natAbs ++ (if e = 0 then [] else 'e' :: intChars e), ?_,
        by decide, by decide, by decide, by decide, fun h => absurd h (by decide)⟩
      rw [renderJson_num_eq, renderNum, intChars_neg m hm, List.cons_append]
    · obtain ⟨c0, t0, heq0, hd0, _⟩ := natDigits_head m.natAbs
      obtain ⟨e1, e2, e3, e4, e5, e6, e7, e8, e9, ea, eb, hrb, hcb, hrc, hcm, ec, hws⟩ :=
        digit_ne_all c0 hd0
      refine ⟨c0, t0 ++ (if e = 0 then [] else 'e' :: intChars e), ?_, hws, hrb, hrc, hcm,
        fun h => absurd h hcb⟩
      rw [renderJson_num_eq, renderNum, intChars_nonneg m hm, heq0, List.cons_append]

theorem renderItems_head (v : Json) (vs : List Json) :
    ∃ c t, renderItems (v :: vs) = c :: t ∧ jsonWsChar c = false ∧ c ≠ ']' := by
  obtain ⟨c, t, heq, hws, hrb, _, _, _⟩ := renderJson_head v
  cases vs with
  | nil => exact ⟨c, t, by rw [renderItems_single_eq, heq], hws, hrb⟩
  | cons w ws =>
    exact ⟨c, t ++ ',' :: renderItems (w :: ws),
      by rw [renderItems_cons_eq, heq, List.cons_append], hws, hrb⟩

theorem numDelim_cons (c : Char) (t : List Char) :
    numDelim (c :: t) = !(isDigitChar c || c = '.' || c = 'e' || c = 'E') := rfl

theorem renderMembers_head (k : List Char) (v : Json) (ms : List (List Char × Json)) :
    ∃ t, renderMembers ((k, v) :: ms) = '"' :: t := by
  cases ms with
  | nil =>
    exact ⟨_, by rw [renderMembers_single_eq, renderStr, List.cons_append]⟩
  | cons p ms2 =>
    exact ⟨_, by rw [renderMembers_cons_eq, renderStr, List.cons_append]⟩

mutual

theorem rt_val : ∀ (v : Json) (fuel : Nat) (rest : List Char),
    (renderJson v).length < fuel → numDelim rest = true →
    jsonParseValue fuel (renderJson v ++ rest) = some (v, rest)
  | .null, fuel, rest, hfuel, _ => by
    obtain ⟨f, rfl⟩ : ∃ f, fuel = f + 1 := by
      cases fuel
      · omega
      · exact ⟨_, rfl⟩
    have hskip : jsonSkipWs ('n' :: ('u' :: ('l' :: ('l' :: rest))))
        = 'n' :: ('u' :: ('l' :: ('l' :: rest))) := jsonSkipWs_cons _ _ (by decide)
    rw [renderJson_null_eq, jsonParseValue.eq_def]
    simp only [List.cons_append, List.nil_append, hskip, Char.reduceEq, reduceIte]
  | .bool true, fuel, rest, hfuel, _ => by
    obtain ⟨f, rfl⟩ : ∃ f, fuel = f + 1 := by
      cases fuel
      · omega
      · exact ⟨_, rfl⟩
    have hskip : jsonSkipWs ('t' :: ('r' :: ('u' :: ('e' :: rest))))
        = 't' :: ('r' :: ('u' :: ('e' :: rest))) := jsonSkipWs_cons _ _ (by decide)
    rw [renderJson_true_eq, jsonParseValue.eq_def]
    simp only [List.cons_append, List.nil_append, hskip, Char.reduceEq, reduceIte]
  | .bool false, fuel, rest, hfuel, _ => by
    obtain ⟨f, rfl⟩ : ∃ f, fuel = f + 1 := by
      cases fuel
      · omega
      · exact ⟨_, rfl⟩
    have hskip : jsonSkipWs ('f' :: ('a' :: ('l' :: ('s' :: ('e' :: rest)))))
        = 'f' :: ('a' :: ('l' :: ('s' :: ('e' :: rest)))) := jsonSkipWs_cons _ _ (by decide)
    rw [renderJson_false_eq, jsonParseValue.eq_def]
    simp only [List.cons_append, List.nil_append, hskip, Char.reduceEq, reduceIte]
  | .num m e, fuel, rest, hfuel, hrest => by
    obtain ⟨f, rfl⟩ : ∃ f, fuel = f + 1 := by
      cases fuel
      · omega
      · exact ⟨_, rfl⟩
    obtain ⟨c0, t0, hform, hnws, hnn, hnt, hnf, hnq, hlb, hlbr, hcond⟩ :
        ∃ c0 t0, renderJson (.num m e) ++ rest = c0 :: t0 ∧ jsonWsChar c0 = false ∧
          c0 ≠ 'n' ∧ c0 ≠ 't' ∧ c0 ≠ 'f' ∧ c0 ≠ '"' ∧ c0 ≠ '[' ∧ c0 ≠ '{' ∧
          (c0 = '-' || isDigitChar c0) = true := by
      rw [renderJson_num_eq]
      by_cases hm : m < 0
      · have hsh : renderNum m e ++ rest
            = '-' :: (natDigits m.natAbs
              ++ ((if e = 0 then [] else 'e' :: intChars e) ++ rest)) := by
          rw [renderNum, intChars_neg m hm]
          simp [List.append_assoc]
        exact ⟨'-', _, hsh, by decide⟩
      · obtain ⟨c0, t0, heq0, hd0, _⟩ := natDigits_head m.natAbs
        obtain ⟨e1, e2, e3, e4, e5, hq1, hn1, ht1, hf1, ea, hlb1, eb, hcb1, ec, ed, ee, hws1⟩ :=
          digit_ne_all c0 hd0
        have hsh : renderNum m e ++ rest
            = c0 :: (t0 ++ ((if e = 0 then [] else 'e' :: intChars e) ++ rest)) := by
          rw [renderNum, intChars_nonneg m hm, heq0]
          simp [List.append_assoc]
        exact ⟨c0, _, hsh, hws1, hn1, ht1, hf1, hq1, hlb1, hcb1, by simp [hd0]⟩
    have hskip : jsonSkipWs (c0 :: t0) = c0 :: t0 := jsonSkipWs_cons _ _ hnws
    have hnum : jsonLexNum (c0 :: t0) = some ((m, e), rest) := by
      rw [← hform, renderJson_num_eq]
      exact jsonLexNum_render m e rest hrest
    rw [jsonParseValue.eq_def]
    simp only [hform, hskip, hnn, hnt, hnf, hnq, hlb, hlbr, hcond, hnum,
      Char.reduceEq, reduceIte, eq_self_iff_true, if_true, if_false]
  | .str s, fuel, rest, hfuel, _ => by
    obtain ⟨f, rfl⟩ : ∃ f, fuel = f + 1 := by
      cases fuel
      · omega
      · exact ⟨_, rfl⟩
    have hsh : renderJson (.str s) ++ rest
        = '"' :: (s.flatMap escapeChar ++ ('"' :: rest)) := by
      rw [renderJson_str_eq, renderStr]
      simp [List.append_assoc]
    have hskip : jsonSkipWs ('"' :: (s.flatMap escapeChar ++ ('"' :: rest)))
        = '"' :: (s.flatMap escapeChar ++ ('"' :: rest)) := jsonSkipWs_cons _ _ (by decide)
    have hlex : jsonLexString [] (s.flatMap escapeChar ++ ('"' :: rest))
        = some (s, rest) := by
      have h := jsonLexString_render s [] rest
      simpa using h
    rw [jsonParseValue.eq_def]
    simp only [hsh, hskip, Char.reduceEq, reduceIte, hlex]
  | .arr [], fuel, rest, hfuel, _ => by
    obtain ⟨f, rfl⟩ : ∃ f, fuel = f + 1 := by
      cases fuel
      · omega
      · exact ⟨_, rfl⟩
    have hsh : renderJson (.arr []) ++ rest = '[' :: (']' :: rest) := by
      rw [renderJson_arr_eq, renderItems_nil_eq]
      simp
    have hskip1 : jsonSkipWs ('[' :: (']' :: rest)) = '[' :: (']' :: rest) :=
      jsonSkipWs_cons _ _ (by decide)
    have hskip2 : jsonSkipWs (']' :: rest) = ']' :: rest := jsonSkipWs_cons _ _ (by decide)
    rw [jsonParseValue.eq_def]
    simp only [hsh, hskip1, hskip2, Char.reduceEq, reduceIte]
  | .arr (v :: vs), fuel, rest, hfuel, _ => by
    obtain ⟨f, rfl⟩ : ∃ f, fuel = f + 1 := by
      cases fuel
      · omega
      · exact ⟨_, rfl⟩
    have hlen : (renderItems (v :: vs)).length + 1 < f := by
      have h' := hfuel
      rw [renderJson_arr_eq] at h'
      simp [List.length_append] at h'
      omega
    obtain ⟨c1, t1, hitems, h1ws, h1rb⟩ := renderItems_head v vs
    have hsh : renderJson (.arr (v :: vs)) ++ rest
        = '[' :: (renderItems (v :: vs) ++ (']' :: rest)) := by
      rw [renderJson_arr_eq]
      simp [List.append_assoc]
    have hskip1 : jsonSkipWs ('[' :: (renderItems (v :: vs) ++ (']' :: rest)))
        = '[' :: (renderItems (v :: vs) ++ (']' :: rest)) := jsonSkipWs_cons _ _ (by decide)
    have hskip2 : jsonSkipWs (renderItems (v :: vs) ++ (']' :: rest))
        = c1 :: (t1 ++ (']' :: rest)) := by
      rw [hitems, List.cons_append]
      exact jsonSkipWs_cons _ _ h1ws
    have hrec : jsonParseItems f (renderItems (v :: vs) ++ (']' :: rest))
        = some (v :: vs, rest) := rt_items v vs f rest hlen
    rw [jsonParseValue.eq_def]
    simp only [hsh, hskip1, Char.reduceEq, reduceIte, hskip2, h1rb, if_false, hrec]
  | .obj [], fuel, rest, hfuel, _ => by
    obtain ⟨f, rfl⟩ : ∃ f, fuel = f + 1 := by
      cases fuel
      · omega
      · exact ⟨_, rfl⟩
    have hsh : renderJson (.obj []) ++ rest = '{' :: ('}' :: rest) := by
      rw [renderJson_obj_eq]
      conv_lhs => rw [renderMembers]
      simp
    have hskip1 : jsonSkipWs ('{' :: ('}' :: rest)) = '{' :: ('}' :: rest) :=
      jsonSkipWs_cons _ _ (by decide)
    have hskip2 : jsonSkipWs ('}' :: rest) = '}' :: rest := jsonSkipWs_cons _ _ (by decide)
    rw [jsonParseValue.eq_def]
    simp only [hsh, hskip1, hskip2, Char.reduceEq, reduceIte]
  | .obj ((k, v) :: ms), fuel, rest, hfuel, _ => by
    obtain ⟨f, rfl⟩ : ∃ f, fuel = f + 1 := by
      cases fuel
      · omega
      · exact ⟨_, rfl⟩
    have hlen : (renderMembers ((k, v) :: ms)).length + 1 < f := by
      have h' := hfuel
      rw [renderJson_obj_eq] at h'
      simp [List.length_append] at h'
      omega
    obtain ⟨t1, hmem⟩ := renderMembers_head k v ms
    have hsh : renderJson (.obj ((k, v) :: ms)) ++ rest
        = '{' :: (renderMembers ((k, v) :: ms) ++ ('}' :: rest)) := by
      rw [renderJson_obj_eq]
      simp [List.append_assoc]
    have hskip1 : jsonSkipWs ('{' :: (renderMembers ((k, v) :: ms) ++ ('}' :: rest)))
        = '{' :: (renderMembers ((k, v) :: ms) ++ ('}' :: rest)) :=
      jsonSkipWs_cons _ _ (by decide)
    have hskip2 : jsonSkipWs (renderMembers ((k, v) :: ms) ++ ('}' :: rest))
        = '"' :: (t1 ++ ('}' :: rest)) := by
      rw [hmem, List.cons_append]
      exact jsonSkipWs_cons _ _ (by decide)
    have hrec : jsonParsePairs f (renderMembers ((k, v) :: ms) ++ ('}' :: rest))
        = some ((k, v) :: ms, rest) := rt_pairs k v ms f rest hlen
    rw [jsonParseValue.eq_def]
    simp only [hsh, hskip1, Char.reduceEq, reduceIte, hskip2, hrec]
termination_by v fuel rest hf hr => sizeOf v

theorem rt_items : ∀ (v : Json) (vs : List Json) (fuel : Nat) (rest : List Char),
    (renderItems (v :: vs)).length + 1 < fuel →
    jsonParseItems fuel (renderItems (v :: vs) ++ (']' :: rest)) = some (v :: vs, rest)
  | v, [], fuel, rest, hlen => by
    obtain ⟨f, rfl⟩ : ∃ f, fuel = f + 1 := by
      cases fuel
      · omega
      · exact ⟨_, rfl⟩
    have hfv : (renderJson v).length < f := by
      rw [renderItems_single_eq] at hlen
      omega
    have hval : jsonParseValue f (renderJson v ++ (']' :: rest)) = some (v, ']' :: rest) :=
      rt_val v f (']' :: rest) hfv (by rw [numDelim_cons]; decide)
    have hskip : jsonSkipWs (']' :: rest) = ']' :: rest := jsonSkipWs_cons _ _ (by decide)
    rw [renderItems_single_eq, jsonParseItems.eq_def]
    simp only [hval, hskip, Char.reduceEq, reduceIte]
  | v, w :: ws, fuel, rest, hlen => by
    obtain ⟨f, rfl⟩ : ∃ f, fuel = f + 1 := by
      cases fuel
      · omega
      · exact ⟨_, rfl⟩
    have hlen' := hlen
    rw [renderItems_cons_eq, List.length_append] at hlen'
    simp only [List.length_cons] at hlen'
    have hfv : (renderJson v).length < f := by omega
    have hlen2 : (renderItems (w :: ws)).length + 1 < f := by omega
    have hsh : renderItems (v :: w :: ws) ++ (']' :: rest)
        = renderJson v ++ (',' :: (renderItems (w :: ws) ++ (']' :: rest))) := by
      rw [renderItems_cons_eq]
      simp [List.append_assoc]
    have hval : jsonParseValue f
          (renderJson v ++ (',' :: (renderItems (w :: ws) ++ (']' :: rest))))
        = some (v, ',' :: (renderItems (w :: ws) ++ (']' :: rest))) :=
      rt_val v f _ hfv (by rw [numDelim_cons]; decide)
    have hskip : jsonSkipWs (',' :: (renderItems (w :: ws) ++ (']' :: rest)))
        = ',' :: (renderItems (w :: ws) ++ (']' :: rest)) := jsonSkipWs_cons _ _ (by decide)
    have hrec : jsonParseItems f (renderItems (w :: ws) ++ (']' :: rest))
        = some (w :: ws, rest) := rt_items w ws f rest hlen2
    rw [jsonParseItems.eq_def]
    simp only [hsh, hval, hskip, Char.reduceEq, reduceIte, hrec]
termination_by v vs fuel rest hl => 1 + sizeOf v + sizeOf vs

theorem rt_pairs : ∀ (k : List Char) (v : Json) (ms : List (List Char × Json))
      (fuel : Nat) (rest : List Char),
    (renderMembers ((k, v) :: ms)).length + 1 < fuel →
    jsonParsePairs fuel (renderMembers ((k, v) :: ms) ++ ('}' :: rest))
      = some ((k, v) :: ms, rest)
  | k, v, [], fuel, rest, hlen => by
    obtain ⟨f, rfl⟩ : ∃ f, fuel = f + 1 := by
      cases fuel
      · omega
      · exact ⟨_, rfl⟩
    have hlen' := hlen
    rw [renderMembers_single_eq, List.length_append] at hlen'
    simp only [List.length_cons] at hlen'
    have hfv : (renderJson v).length < f := by omega
    have hsh : renderMembers [(k, v)] ++ ('}' :: rest)
        = '"' :: (k.flatMap escapeChar
            ++ ('"' :: (':' :: (renderJson v ++ ('}' :: rest))))) := by
      rw [renderMembers_single_eq, renderStr]
      simp [List.append_assoc]
    have hskipA : jsonSkipWs ('"' :: (k.flatMap escapeChar
          ++ ('"' :: (':' :: (renderJson v ++ ('}' :: rest))))))
        = '"' :: (k.flatMap escapeChar
            ++ ('"' :: (':' :: (renderJson v ++ ('}' :: rest))))) :=
      jsonSkipWs_cons _ _ (by decide)
    have hlex : jsonLexString [] (k.flatMap escapeChar
          ++ ('"' :: (':' :: (renderJson v ++ ('}' :: rest)))))
        = some (k, ':' :: (renderJson v ++ ('}' :: rest))) := by
      have h := jsonLexString_render k [] (':' :: (renderJson v ++ ('}' :: rest)))
      simpa using h
    have hskipB : jsonSkipWs (':' :: (renderJson v ++ ('}' :: rest)))
        = ':' :: (renderJson v ++ ('}' :: rest)) := jsonSkipWs_cons _ _ (by decide)
    have hval : jsonParseValue f (renderJson v ++ ('}' :: rest)) = some (v, '}' :: rest) :=
      rt_val v f _ hfv (by rw [numDelim_cons]; decide)
    have hskipC : jsonSkipWs ('}' :: rest) = '}' :: rest := jsonSkipWs_cons _ _ (by decide)
    rw [jsonParsePairs.eq_def]
    simp only [hsh, hskipA, Char.reduceEq, reduceIte, hlex, hskipB, hval, hskipC]
  | k, v, (k2, v2) :: ms2, fuel, rest, hlen => by
    obtain ⟨f, rfl⟩ : ∃ f, fuel = f + 1 := by
      cases fuel
      · omega
      · exact ⟨_, rfl⟩
    have hlen' := hlen
    rw [renderMembers_cons_eq, List.length_append] at hlen'
    simp only [List.length_cons, List.length_append] at hlen'
    have hfv : (renderJson v).length < f := by omega
    have hlen2 : (renderMembers ((k2, v2) :: ms2)).length + 1 < f := by omega
    have hsh : renderMembers ((k, v) :: (k2, v2) :: ms2) ++ ('}' :: rest)
        = '"' :: (k.flatMap escapeChar
            ++ ('"' :: (':' :: (renderJson v
              ++ (',' :: (renderMembers ((k2, v2) :: ms2) ++ ('}' :: rest))))))) := by
      rw [renderMembers_cons_eq, renderStr]
      simp [List.append_assoc]
    have hskipA : jsonSkipWs ('"' :: (k.flatMap escapeChar
          ++ ('"' :: (':' :: (renderJson v
            ++ (',' :: (renderMembers ((k2, v2) :: ms2) ++ ('}' :: rest))))))))
        = '"' :: (k.flatMap escapeChar
            ++ ('"' :: (':' :: (renderJson v
              ++ (',' :: (renderMembers ((k2, v2) :: ms2) ++ ('}' :: rest))))))) :=
      jsonSkipWs_cons _ _ (by decide)
    have hlex : jsonLexString [] (k.flatMap escapeChar
          ++ ('"' :: (':' :: (renderJson v
            ++ (',' :: (renderMembers ((k2, v2) :: ms2) ++ ('}' :: rest)))))))
        = some (k, ':' :: (renderJson v
            ++ (',' :: (renderMembers ((k2, v2) :: ms2) ++ ('}' :: rest))))) := by
      have h := jsonLexString_render k []
        (':' :: (renderJson v
          ++ (',' :: (renderMembers ((k2, v2) :: ms2) ++ ('}' :: rest)))))
      simpa using h
    have hskipB : jsonSkipWs (':' :: (renderJson v
          ++ (',' :: (renderMembers ((k2, v2) :: ms2) ++ ('}' :: rest)))))
        = ':' :: (renderJson v
            ++ (',' :: (renderMembers ((k2, v2) :: ms2) ++ ('}' :: rest)))) :=
      jsonSkipWs_cons _ _ (by decide)
    have hval : jsonParseValue f (renderJson v
          ++ (',' :: (renderMembers ((k2, v2) :: ms2) ++ ('}' :: rest))))
        = some (v, ',' :: (renderMembers ((k2, v2) :: ms2) ++ ('}' :: rest))) :=
      rt_val v f _ hfv (by rw [numDelim_cons]; decide)
    have hskipC : jsonSkipWs (',' :: (renderMembers ((k2, v2) :: ms2) ++ ('}' :: rest)))
        = ',' :: (renderMembers ((k2, v2) :: ms2) ++ ('}' :: rest)) :=
      jsonSkipWs_cons _ _ (by decide)
    have hrec : jsonParsePairs f (renderMembers ((k2, v2) :: ms2) ++ ('}' :: rest))
        = some ((k2, v2) :: ms2, rest) := rt_pairs k2 v2 ms2 f rest hlen2
    rw [jsonParsePairs.eq_def]
    simp only [hsh, hskipA, Char.reduceEq, reduceIte, hlex, hskipB, hval, hskipC, hrec]
termination_by k v ms fuel rest hl => 1 + sizeOf k + sizeOf v + sizeOf ms

end

/-! ## Claim C2: model-level corollaries of the round trip -/

/-- `JSON.parse` recovers any value the stringify model produced. -/
theorem jsonParseText_render (v : Json) : jsonParseText (renderJson v) = some v := by
  have h : jsonParseValue (2 * (renderJson v).length + 2) (renderJson v) = some (v, []) := by
    have h0 := rt_val v (2 * (renderJson v).length + 2) [] (by omega) rfl
    rwa [List.append_nil] at h0
  unfold jsonParseText
  rw [h]
  rfl

/-- Trimming is the identity when both ends are non-whitespace. -/
theorem jsTrim_id (cs : List Char) (h1 : ∀ c t, cs = c :: t → jsWs c = false)
    (h2 : ∀ c t, cs.reverse = c :: t → jsWs c = false) : jsTrim cs = cs := by
  cases cs with
  | nil => rfl
  | cons c t =>
    rw [jsTrim, dropWhile_head_false _ _ _ (h1 c t rfl)]
    cases hrev : (c :: t).reverse with
    | nil => simp at hrev
    | cons d u =>
      rw [dropWhile_head_false _ _ _ (h2 d u hrev), ← hrev, List.reverse_reverse]

/-- The reversed form of a suffix keeps the reversed head of the whole list. -/
theorem reverse_drop_head (R : List Char) (k : Nat) (hk : k < R.length) (c : Char)
    (hc : R.reverse.head? = some c) : ((R.drop k).reverse).head? = some c := by
  have hsplit := List.take_append_drop k R
  cases hd : (R.drop k).reverse with
  | nil =>
    have : R.drop k = [] := by
      have := congrArg List.reverse hd
      simpa using this
    have := List.drop_eq_nil_iff.mp this
    omega
  | cons x xs =>
    conv at hc => rw [← hsplit]
    rw [List.reverse_append, hd] at hc
    rw [List.cons_append] at hc
    simp only [List.head?_cons, Option.some.injEq] at hc
    simp [hc]

/-- Heads that end a value in context: the separators and closers that can
follow a rendered sub-value inside a larger rendered text. -/
def closerHead : List Char → Bool
  | [] => false
  | c :: _ => c = ',' || c = ']' || c = '}'

theorem closerHead_cons (c : Char) (t : List Char) :
    closerHead (c :: t) = (c = ',' || c = ']' || c = '}') := rfl

/-! ## Unescaped-quote counting

A position inside a rendered string literal starts a suffix with an odd
number of unescaped quotes; `JSON.parse` can only succeed on texts with an
even count. This refutes every in-string brace candidate of the scan. -/

/-- Backslashes pair with their following character. -/
def unitSeq : List Char → Bool
  | [] => true
  | c :: t =>
    if c = '\\' then
      match t with
      | [] => false
      | _ :: t2 => unitSeq t2
    else unitSeq t

/-- Number of unescaped double quotes. -/
def uq : List Char → Nat
  | [] => 0
  | c :: t =>
    if c = '\\' then
      match t with
      | [] => 0
      | _ :: t2 => uq t2
    else if c = '"' then 1 + uq t
    else uq t

theorem unitSeq_nil : unitSeq [] = true := by rw [unitSeq.eq_def]

theorem unitSeq_cons (c : Char) (t : List Char) :
    unitSeq (c :: t)
      = (if c = '\\' then
          (match t with
           | [] => false
           | _ :: t2 => unitSeq t2)
        else unitSeq t) := by
  conv_lhs => rw [unitSeq.eq_def]

theorem uq_nil : uq [] = 0 := by rw [uq.eq_def]

theorem uq_cons (c : Char) (t : List Char) :
    uq (c :: t)
      = (if c = '\\' then
          (match t with
           | [] => 0
           | _ :: t2 => uq t2)
        else if c = '"' then 1 + uq t
        else uq t) := by
  conv_lhs => rw [uq.eq_def]

theorem unitSeq_esc (x : Char) (t : List Char) : unitSeq ('\\' :: x :: t) = unitSeq t := by
  rw [unitSeq_cons]
  simp

theorem unitSeq_plain (c : Char) (t : List Char) (h : c ≠ '\\') :
    unitSeq (c :: t) = unitSeq t := by
  rw [unitSeq_cons]
  simp [h]

theorem uq_esc (x : Char) (t : List Char) : uq ('\\' :: x :: t) = uq t := by
  rw [uq_cons]
  simp

theorem uq_quote (t : List Char) : uq ('"' :: t) = 1 + uq t := by
  rw [uq_cons]
  simp

theorem uq_plain (c : Char) (t : List Char) (h1 : c ≠ '\\') (h2 : c ≠ '"') :
    uq (c :: t) = uq t := by
  rw [uq_cons]
  simp [h1, h2]

theorem unitSeq_append : ∀ (A B : List Char), unitSeq A = true →
    unitSeq (A ++ B) = unitSeq B
  | [], B, _ => by simp
  | c :: t, B, h => by
    by_cases hc : c = '\\'
    · subst hc
      cases t with
      | nil =>
        rw [unitSeq_cons] at h
        simp at h
      | cons x t2 =>
        rw [unitSeq_esc] at h
        rw [List.cons_append, List.cons_append, unitSeq_esc]
        exact unitSeq_append t2 B h
    · rw [unitSeq_plain _ _ hc] at h
      rw [List.cons_append, unitSeq_plain _ _ hc]
      exact unitSeq_append t B h
termination_by A B h => A.length

theorem uq_append : ∀ (A B : List Char), unitSeq A = true →
    uq (A ++ B) = uq A + uq B
  | [], B, _ => by simp [uq_nil]
  | c :: t, B, h => by
    by_cases hc : c = '\\'
    · subst hc
      cases t with
      | nil =>
        rw [unitSeq_cons] at h
        simp at h
      | cons x t2 =>
        rw [unitSeq_esc] at h
        rw [List.cons_append, List.cons_append, uq_esc, uq_esc]
        exact uq_append t2 B h
    · rw [unitSeq_plain _ _ hc] at h
      by_cases hq : c = '"'
      · subst hq
        rw [List.cons_append, uq_quote, uq_quote, uq_append t B h]
        omega
      · rw [List.cons_append, uq_plain _ _ hc hq, uq_plain _ _ hc hq]
        exact uq_append t B h
termination_by A B h => A.length

theorem uq_no_special : ∀ (cs : List Char), (∀ c ∈ cs, c ≠ '"' ∧ c ≠ '\\') →
    unitSeq cs = true ∧ uq cs = 0
  | [], _ => ⟨unitSeq_nil, uq_nil⟩
  | c :: t, h => by
    obtain ⟨hq, hb⟩ := h c (by simp)
    have ih := uq_no_special t (fun x hx => h x (by simp [hx]))
    rw [unitSeq_plain _ _ hb, uq_plain _ _ hb hq]
    exact ih

theorem renderHexDigit_facts (n : Nat) (h : n < 16) :
    renderHexDigit n ≠ '"' ∧ renderHexDigit n ≠ '\\' ∧ renderHexDigit n ≠ '{' := by
  interval_cases n <;> refine ⟨by decide, by decide, by decide⟩

theorem escapeChar_facts (c : Char) :
    unitSeq (escapeChar c) = true ∧ uq (escapeChar c) = 0 := by
  rw [escapeChar]
  split_ifs with h1 h2 h3 h4 h5 h6 h7 h8
  · exact ⟨by rw [unitSeq_esc]; exact unitSeq_nil, by rw [uq_esc]; exact uq_nil⟩
  · exact ⟨by rw [unitSeq_esc]; exact unitSeq_nil, by rw [uq_esc]; exact uq_nil⟩
  · exact ⟨by rw [unitSeq_esc]; exact unitSeq_nil, by rw [uq_esc]; exact uq_nil⟩
  · exact ⟨by rw [unitSeq_esc]; exact unitSeq_nil, by rw [uq_esc]; exact uq_nil⟩
  · exact ⟨by rw [unitSeq_esc]; exact unitSeq_nil, by rw [uq_esc]; exact uq_nil⟩
  · exact ⟨by rw [unitSeq_esc]; exact unitSeq_nil, by rw [uq_esc]; exact uq_nil⟩
  · exact ⟨by rw [unitSeq_esc]; exact unitSeq_nil, by rw [uq_esc]; exact uq_nil⟩
  · obtain ⟨hq1, hb1, _⟩ := renderHexDigit_facts (c.toNat / 16) (by omega)
    obtain ⟨hq2, hb2, _⟩ := renderHexDigit_facts (c.toNat % 16) (by omega)
    constructor
    · rw [unitSeq_esc, unitSeq_plain _ _ (by decide), unitSeq_plain _ _ (by decide),
        unitSeq_plain _ _ hb1, unitSeq_plain _ _ hb2]
      exact unitSeq_nil
    · rw [uq_esc, uq_plain _ _ (by decide) (by decide), uq_plain _ _ (by decide) (by decide),
        uq_plain _ _ hb1 hq1, uq_plain _ _ hb2 hq2]
      exact uq_nil
  · exact ⟨by rw [unitSeq_plain _ _ h2]; exact unitSeq_nil,
      by rw [uq_plain _ _ h2 h1]; exact uq_nil⟩

theorem escapeChar_brace (c : Char) (a b : List Char)
    (h : escapeChar c = a ++ '{' :: b) : c = '{' ∧ a = [] ∧ b = [] := by
  by_cases hc : c = '{'
  · subst hc
    rw [show escapeChar '{' = ['{'] from rfl] at h
    cases a with
    | nil =>
      simp only [List.nil_append, List.cons.injEq] at h
      exact ⟨rfl, rfl, h.2.symm⟩
    | cons x a1 =>
      rw [List.cons_append] at h
      injection h with h0 h1
      exact absurd h1.symm (by simp)
  · exfalso
    have hmem : '{' ∈ escapeChar c := by
      rw [h]
      simp
    revert hmem
    rw [escapeChar]
    split_ifs with h1 h2 h3 h4 h5 h6 h7 h8
    · decide
    · decide
    · decide
    · decide
    · decide
    · decide
    · decide
    · obtain ⟨_, _, hb1⟩ := renderHexDigit_facts (c.toNat / 16) (by omega)
      obtain ⟨_, _, hb2⟩ := renderHexDigit_facts (c.toNat % 16) (by omega)
      intro hmem
      simp only [List.mem_cons, List.not_mem_nil, or_false] at hmem
      rcases hmem with h | h | h | h | h | h
      · exact absurd h.symm (by decide)
      · exact absurd h.symm (by decide)
      · exact absurd h.symm (by decide)
      · exact absurd h.symm (by decide)
      · exact hb1 h.symm
      · exact hb2 h.symm
    · intro hmem
      simp only [List.mem_singleton] at hmem
      exact hc hmem.symm

/-- Split an append at an occurrence of a character: the hit lies in the left
or in the right part. -/
theorem append_split_char (X Y a b : List Char) (c : Char) (h : X ++ Y = a ++ c :: b) :
    (∃ b1, X = a ++ c :: b1 ∧ b = b1 ++ Y) ∨ (∃ a2, a = X ++ a2 ∧ Y = a2 ++ c :: b) := by
  rcases List.append_eq_append_iff.mp h with ⟨m, hm1, hm2⟩ | ⟨m, hm1, hm2⟩
  · right
    exact ⟨m, hm1, hm2⟩
  · cases m with
    | nil =>
      have hx : X = a := by simpa using hm1
      right
      exact ⟨[], by simp [hx], by simpa using hm2.symm⟩
    | cons x m2 =>
      left
      rw [List.cons_append] at hm2
      injection hm2 with h0 h1
      exact ⟨m2, by rw [hm1, ← h0], h1⟩

/-- As `append_split_char`, but the hit index is known to lie in the left part. -/
theorem split_at_lt (X Y a b : List Char) (c : Char) (h : X ++ Y = a ++ c :: b)
    (hl : a.length < X.length) : ∃ b1, X = a ++ c :: b1 ∧ b = b1 ++ Y := by
  rcases append_split_char X Y a b c h with hin | ⟨a2, ha, _⟩
  · exact hin
  · exfalso
    rw [ha, List.length_append] at hl
    omega

/-- Escaped string bodies: facts of the full body. -/
theorem flat_facts (s : List Char) :
    unitSeq (s.flatMap escapeChar) = true ∧ uq (s.flatMap escapeChar) = 0 := by
  induction s with
  | nil => exact ⟨unitSeq_nil, uq_nil⟩
  | cons c s2 ih =>
    obtain ⟨hu, hq⟩ := escapeChar_facts c
    rw [List.flatMap_cons]
    exact ⟨by rw [unitSeq_append _ _ hu]; exact ih.1,
      by rw [uq_append _ _ hu, hq, ih.2]⟩

/-- A brace inside an escaped string body starts a plain unit; the rest of
the body after it is balanced and quote-free. -/
theorem split_flat : ∀ (s a B : List Char), s.flatMap escapeChar = a ++ '{' :: B →
    unitSeq B = true ∧ uq B = 0
  | [], a, B, h => by
    rw [List.flatMap_nil] at h
    exact absurd h.symm (by simp)
  | c :: s2, a, B, h => by
    rw [List.flatMap_cons] at h
    rcases append_split_char _ _ _ _ _ h with ⟨b1, hes, hB⟩ | ⟨a2, _, htl⟩
    · obtain ⟨hc, ha, hb1⟩ := escapeChar_brace c a b1 hes
      subst hb1
      rw [hB, List.nil_append]
      exact flat_facts s2
    · exact split_flat s2 a2 B htl

theorem renderMembers_nil_eq : renderMembers [] = [] := by rw [renderMembers]

theorem intChars_chars (i : Int) : ∀ c ∈ intChars i, c ≠ '{' ∧ c ≠ '"' ∧ c ≠ '\\' := by
  have hdig : ∀ c ∈ natDigits i.natAbs, c ≠ '{' ∧ c ≠ '"' ∧ c ≠ '\\' := by
    intro c h2
    have hd := (natDigits_facts i.natAbs).1 c h2
    obtain ⟨e1, e2, e3, e4, e5, hq, e6, e7, e8, hb, eb, ec, hcb, ed, ee, ef, eg⟩ :=
      digit_ne_all c hd
    exact ⟨hcb, hq, hb⟩
  intro c hc
  rw [intChars] at hc
  by_cases hm : i < 0
  · rw [if_pos hm] at hc
    rcases List.mem_cons.mp hc with rfl | h2
    · exact ⟨by decide, by decide, by decide⟩
    · exact hdig c h2
  · rw [if_neg hm] at hc
    exact hdig c hc

theorem renderNum_chars (m e : Int) :
    ∀ c ∈ renderNum m e, c ≠ '{' ∧ c ≠ '"' ∧ c ≠ '\\' := by
  intro c hc
  rw [renderNum] at hc
  rcases List.mem_append.mp hc with h | h
  · exact intChars_chars m c h
  · by_cases he : e = 0
    · rw [if_pos he] at h
      simp at h
    · rw [if_neg he] at h
      rcases List.mem_cons.mp h with rfl | h2
      · exact ⟨by decide, by decide, by decide⟩
      · exact intChars_chars e c h2

mutual

theorem uqr_val : ∀ (v : Json),
    unitSeq (renderJson v) = true ∧ uq (renderJson v) % 2 = 0
  | .null => by
    rw [renderJson_null_eq]
    exact ⟨by decide, by decide⟩
  | .bool true => by
    rw [renderJson_true_eq]
    exact ⟨by decide, by decide⟩
  | .bool false => by
    rw [renderJson_false_eq]
    exact ⟨by decide, by decide⟩
  | .num m e => by
    rw [renderJson_num_eq]
    have h := uq_no_special (renderNum m e)
      (fun c hc => ⟨(renderNum_chars m e c hc).2.1, (renderNum_chars m e c hc).2.2⟩)
    exact ⟨h.1, by rw [h.2]⟩
  | .str s => by
    rw [renderJson_str_eq, renderStr]
    obtain ⟨hu, hq⟩ := flat_facts s
    constructor
    · rw [unitSeq_plain _ _ (by decide), unitSeq_append _ _ hu,
        unitSeq_plain _ _ (by decide)]
      exact unitSeq_nil
    · rw [uq_quote, uq_append _ _ hu, hq, uq_quote, uq_nil]
  | .arr vs => by
    rw [renderJson_arr_eq]
    obtain ⟨hu, hq⟩ := uqr_items vs
    constructor
    · rw [unitSeq_plain _ _ (by decide), unitSeq_append _ _ hu,
        unitSeq_plain _ _ (by decide)]
      exact unitSeq_nil
    · rw [uq_plain _ _ (by decide) (by decide), uq_append _ _ hu,
        uq_plain _ _ (by decide) (by decide), uq_nil]
      omega
  | .obj ms => by
    rw [renderJson_obj_eq]
    obtain ⟨hu, hq⟩ := uqr_members ms
    constructor
    · rw [unitSeq_plain _ _ (by decide), unitSeq_append _ _ hu,
        unitSeq_plain _ _ (by decide)]
      exact unitSeq_nil
    · rw [uq_plain _ _ (by decide) (by decide), uq_append _ _ hu,
        uq_plain _ _ (by decide) (by decide), uq_nil]
      omega
termination_by v => sizeOf v

theorem uqr_items : ∀ (vs : List Json),
    unitSeq (renderItems vs) = true ∧ uq (renderItems vs) % 2 = 0
  | [] => by
    rw [renderItems_nil_eq]
    exact ⟨unitSeq_nil, by rw [uq_nil]⟩
  | [v] => by
    rw [renderItems_single_eq]
    exact uqr_val v
  | v :: w :: ws => by
    rw [renderItems_cons_eq]
    obtain ⟨hu1, hq1⟩ := uqr_val v
    obtain ⟨hu2, hq2⟩ := uqr_items (w :: ws)
    constructor
    · rw [unitSeq_append _ _ hu1, unitSeq_plain _ _ (by decide)]
      exact hu2
    · rw [uq_append _ _ hu1, uq_plain _ _ (by decide) (by decide)]
      omega
termination_by vs => sizeOf vs

theorem uqr_members : ∀ (ms : List (List Char × Json)),
    unitSeq (renderMembers ms) = true ∧ uq (renderMembers ms) % 2 = 0
  | [] => by
    rw [renderMembers_nil_eq]
    exact ⟨unitSeq_nil, by rw [uq_nil]⟩
  | [(k, v)] => by
    have hsh : renderMembers [(k, v)]
        = '"' :: (k.flatMap escapeChar ++ ('"' :: (':' :: renderJson v))) := by
      rw [renderMembers_single_eq, renderStr]
      simp [List.append_assoc]
    rw [hsh]
    obtain ⟨huf, hqf⟩ := flat_facts k
    obtain ⟨huv, hqv⟩ := uqr_val v
    constructor
    · rw [unitSeq_plain _ _ (by decide), unitSeq_append _ _ huf,
        unitSeq_plain _ _ (by decide), unitSeq_plain _ _ (by decide)]
      exact huv
    · rw [uq_quote, uq_append _ _ huf, hqf, uq_quote,
        uq_plain _ _ (by decide) (by decide)]
      omega
  | (k, v) :: p :: ms2 => by
    have hsh : renderMembers ((k, v) :: p :: ms2)
        = '"' :: (k.flatMap escapeChar
            ++ ('"' :: (':' :: (renderJson v ++ (',' :: renderMembers (p :: ms2)))))) := by
      rw [renderMembers_cons_eq, renderStr]
      simp [List.append_assoc]
    rw [hsh]
    obtain ⟨huf, hqf⟩ := flat_facts k
    obtain ⟨huv, hqv⟩ := uqr_val v
    obtain ⟨hum, hqm⟩ := uqr_members (p :: ms2)
    constructor
    · rw [unitSeq_plain _ _ (by decide), unitSeq_append _ _ huf,
        unitSeq_plain _ _ (by decide), unitSeq_plain _ _ (by decide),
        unitSeq_append _ _ huv, unitSeq_plain _ _ (by decide)]
      exact hum
    · rw [uq_quote, uq_append _ _ huf, hqf, uq_quote,
        uq_plain _ _ (by decide) (by decide), uq_append _ _ huv,
        uq_plain _ _ (by decide) (by decide)]
      omega
termination_by ms => sizeOf ms

end

/-! ## Parity of unescaped quotes through the parser -/

theorem uq_skipWs : ∀ (cs : List Char), uq (jsonSkipWs cs) = uq cs
  | [] => rfl
  | c :: t => by
    show uq (List.dropWhile jsonWsChar (c :: t)) = uq (c :: t)
    rw [List.dropWhile_cons]
    by_cases hw : jsonWsChar c
    · rw [if_pos hw]
      rcases jsonWsChar_cases c hw with rfl | rfl | rfl | rfl <;>
        rw [uq_plain _ _ (by decide) (by decide)] <;> exact uq_skipWs t
    · rw [if_neg hw]

theorem hexDigitVal_ne (x : Char) (d : Nat) (h : hexDigitVal x = some d) :
    x ≠ '"' ∧ x ≠ '\\' := by
  refine ⟨?_, ?_⟩ <;> rintro rfl
  · rw [show hexDigitVal '"' = none from rfl] at h
    exact absurd h (by simp)
  · rw [show hexDigitVal '\\' = none from rfl] at h
    exact absurd h (by simp)

theorem jsonLexString_nil (acc : List Char) : jsonLexString acc [] = none := by
  conv_lhs => rw [jsonLexString.eq_def]

theorem jsonLexString_cons (acc : List Char) (c : Char) (rest : List Char) :
    jsonLexString acc (c :: rest)
      = (if c = '"' then some (acc.reverse, rest)
        else if c = '\\' then
          match rest with
          | [] => none
          | e :: rest2 =>
            if e = 'u' then
              match rest2 with
              | a :: b :: c2 :: d :: rest3 =>
                match hexDigitVal a, hexDigitVal b, hexDigitVal c2, hexDigitVal d with
                | some va, some vb, some vc, some vd =>
                  jsonLexString
                    (Char.ofNat (((va * 16 + vb) * 16 + vc) * 16 + vd) :: acc) rest3
                | _, _, _, _ => none
              | _ => none
            else
              match unescapeChar e with
              | some ch => jsonLexString (ch :: acc) rest2
              | none => none
        else if c.toNat < 0x20 then none
        else jsonLexString (c :: acc) rest) := by
  conv_lhs => rw [jsonLexString.eq_def]

theorem uq_lexString : ∀ (cs acc s r : List Char),
    jsonLexString acc cs = some (s, r) → uq cs = 1 + uq r
  | [], acc, s, r, h => by
    rw [jsonLexString_nil] at h
    exact absurd h (by simp)
  | c :: rest, acc, s, r, h => by
    rw [jsonLexString_cons] at h
    by_cases hq : c = '"'
    · rw [if_pos hq] at h
      subst hq
      simp only [Prod.mk.injEq, Option.some.injEq] at h
      rw [uq_quote, h.2]
    · rw [if_neg hq] at h
      by_cases hb : c = '\\'
      · subst hb
        rw [if_pos rfl] at h
        cases rest with
        | nil => simp at h
        | cons e rest2 =>
          simp only [] at h
          by_cases he : e = 'u'
          · subst he
            rw [if_pos rfl] at h
            cases rest2 with
            | nil => simp at h
            | cons a r2 =>
              cases r2 with
              | nil => simp at h
              | cons b r3 =>
                cases r3 with
                | nil => simp at h
                | cons c2 r4 =>
                  cases r4 with
                  | nil => simp at h
                  | cons d rest3 =>
                    simp only [] at h
                    cases ha : hexDigitVal a with
                    | none => simp only [ha] at h; exact absurd h (by simp)
                    | some va =>
                      simp only [ha] at h
                      cases hb2 : hexDigitVal b with
                      | none => simp only [hb2] at h; exact absurd h (by simp)
                      | some vb =>
                        simp only [hb2] at h
                        cases hc2 : hexDigitVal c2 with
                        | none => simp only [hc2] at h; exact absurd h (by simp)
                        | some vc =>
                          simp only [hc2] at h
                          cases hd2 : hexDigitVal d with
                          | none => simp only [hd2] at h; exact absurd h (by simp)
                          | some vd =>
                            simp only [hd2] at h
                            have ih := uq_lexString rest3 _ s r h
                            obtain ⟨haq, hab⟩ := hexDigitVal_ne a va ha
                            obtain ⟨hbq, hbb⟩ := hexDigitVal_ne b vb hb2
                            obtain ⟨hcq, hcb⟩ := hexDigitVal_ne c2 vc hc2
                            obtain ⟨hdq, hdb⟩ := hexDigitVal_ne d vd hd2
                            rw [uq_esc, uq_plain _ _ hab haq, uq_plain _ _ hbb hbq,
                              uq_plain _ _ hcb hcq, uq_plain _ _ hdb hdq]
                            exact ih
          · rw [if_neg he] at h
            cases hu : unescapeChar e with
            | none => simp only [hu] at h; exact absurd h (by simp)
            | some ch =>
              simp only [hu] at h
              have ih := uq_lexString rest2 (ch :: acc) s r h
              rw [uq_esc]
              exact ih
      · rw [if_neg hb] at h
        by_cases hc : c.toNat < 0x20
        · rw [if_pos hc] at h
          exact absurd h (by simp)
        · rw [if_neg hc] at h
          have ih := uq_lexString rest (c :: acc) s r h
          rw [uq_plain _ _ hb hq]
          exact ih

theorem uq_takeWhileDigits (t : List Char) :
    unitSeq (t.takeWhile isDigitChar) = true ∧ uq (t.takeWhile isDigitChar) = 0 := by
  apply uq_no_special
  intro c hc
  have hd := List.mem_takeWhile_imp hc
  obtain ⟨e1, e2, e3, e4, e5, hq, e6, e7, e8, hb, eb, ec, ed, ee, ef, eg, eh⟩ :=
    digit_ne_all c hd
  exact ⟨hq, hb⟩

theorem uq_dropWhileDigits (t : List Char) :
    uq t = uq (t.dropWhile isDigitChar) := by
  obtain ⟨hu, hz⟩ := uq_takeWhileDigits t
  conv_lhs => rw [← List.takeWhile_append_dropWhile (p := isDigitChar) (l := t)]
  rw [uq_append _ _ hu, hz]
  omega

theorem uq_numSign (cs : List Char) : uq (jsonNumSign cs).2 = uq cs := by
  cases cs with
  | nil => rfl
  | cons c t =>
    have hstep : jsonNumSign (c :: t) = (if c = '-' then (true, t) else (false, c :: t)) := by
      conv_lhs => rw [jsonNumSign.eq_def]
    rw [hstep]
    by_cases hm : c = '-'
    · subst hm
      rw [if_pos rfl, uq_plain _ _ (by decide) (by decide)]
    · rw [if_neg hm]

theorem uq_lexInt (cs ds r : List Char) (h : jsonLexInt cs = some (ds, r)) :
    uq cs = uq r := by
  cases cs with
  | nil =>
    rw [show jsonLexInt [] = none from by conv_lhs => rw [jsonLexInt.eq_def]] at h
    exact absurd h (by simp)
  | cons c t =>
    have hstep : jsonLexInt (c :: t)
        = (if c = '0' then some (['0'], t)
          else if isDigitChar c then
            some (c :: t.takeWhile isDigitChar, t.dropWhile isDigitChar)
          else none) := by
      conv_lhs => rw [jsonLexInt.eq_def]
    rw [hstep] at h
    split_ifs at h with h0 hd
    · simp only [Prod.mk.injEq, Option.some.injEq] at h
      subst h0
      rw [uq_plain _ _ (by decide) (by decide), ← h.2]
    · simp only [Prod.mk.injEq, Option.some.injEq] at h
      obtain ⟨e1, e2, e3, e4, e5, hq, e6, e7, e8, hb, eb, ec, ed, ee, ef, eg, eh⟩ :=
        digit_ne_all c hd
      rw [uq_plain _ _ hb hq, ← h.2]
      exact uq_dropWhileDigits t

theorem uq_numFrac (cs ds r : List Char) (h : jsonNumFrac cs = some (ds, r)) :
    uq cs = uq r := by
  cases cs with
  | nil =>
    rw [show jsonNumFrac [] = some ([], []) from by conv_lhs => rw [jsonNumFrac.eq_def]] at h
    simp only [Prod.mk.injEq, Option.some.injEq] at h
    rw [← h.2]
  | cons c t =>
    have hstep : jsonNumFrac (c :: t)
        = (if c = '.' then
            if (t.takeWhile isDigitChar).isEmpty then none
            else some (t.takeWhile isDigitChar, t.dropWhile isDigitChar)
          else some ([], c :: t)) := by
      conv_lhs => rw [jsonNumFrac.eq_def]
    rw [hstep] at h
    by_cases hdot : c = '.'
    · rw [if_pos hdot] at h
      by_cases hemp : (t.takeWhile isDigitChar).isEmpty
      · rw [if_pos hemp] at h
        exact absurd h (by simp)
      · rw [if_neg hemp] at h
        simp only [Prod.mk.injEq, Option.some.injEq] at h
        subst hdot
        rw [uq_plain _ _ (by decide) (by decide), ← h.2]
        exact uq_dropWhileDigits t
    · rw [if_neg hdot] at h
      simp only [Prod.mk.injEq, Option.some.injEq] at h
      rw [← h.2]

theorem uq_expSign (cs : List Char) : uq (jsonExpSign cs).2 = uq cs := by
  cases cs with
  | nil => rfl
  | cons x r2 =>
    have hstep : jsonExpSign (x :: r2)
        = (if x = '+' then ((1 : Int), r2) else if x = '-' then (-1, r2)
          else (1, x :: r2)) := by
      conv_lhs => rw [jsonExpSign.eq_def]
    rw [hstep]
    split_ifs with h1 h2
    · subst h1
      rw [uq_plain _ _ (by decide) (by decide)]
    · subst h2
      rw [uq_plain _ _ (by decide) (by decide)]
    · rfl

theorem uq_numExp (cs : List Char) (ev : Int) (r : List Char)
    (h : jsonNumExp cs = some (ev, r)) : uq cs = uq r := by
  cases cs with
  | nil =>
    rw [show jsonNumExp [] = some (0, []) from by conv_lhs => rw [jsonNumExp.eq_def]] at h
    simp only [Prod.mk.injEq, Option.some.injEq] at h
    rw [← h.2]
  | cons c t =>
    have hstep : jsonNumExp (c :: t)
        = (if c = 'e' ∨ c = 'E' then
            if (((jsonExpSign t).2.takeWhile isDigitChar).isEmpty : Bool) then none
            else some ((jsonExpSign t).1
                * (digitsVal ((jsonExpSign t).2.takeWhile isDigitChar) : Int),
              (jsonExpSign t).2.dropWhile isDigitChar)
          else some (0, c :: t)) := by
      conv_lhs => rw [jsonNumExp.eq_def]
    rw [hstep] at h
    by_cases hee : c = 'e' ∨ c = 'E'
    · rw [if_pos hee] at h
      by_cases hemp : (((jsonExpSign t).2.takeWhile isDigitChar).isEmpty : Bool)
      · rw [if_pos hemp] at h
        exact absurd h (by simp)
      · rw [if_neg hemp] at h
        simp only [Prod.mk.injEq, Option.some.injEq] at h
        have hplain : uq (c :: t) = uq t := by
          rcases hee with rfl | rfl <;> rw [uq_plain _ _ (by decide) (by decide)]
        rw [hplain, ← uq_expSign t, ← h.2]
        exact uq_dropWhileDigits (jsonExpSign t).2
    · rw [if_neg hee] at h
      simp only [Prod.mk.injEq, Option.some.injEq] at h
      rw [← h.2]

theorem uq_lexNum (cs : List Char) (ne : Int × Int) (r : List Char)
    (h : jsonLexNum cs = some (ne, r)) : uq cs = uq r := by
  unfold jsonLexNum at h
  cases h1 : jsonLexInt (jsonNumSign cs).2 with
  | none => simp only [h1] at h; exact absurd h (by simp)
  | some p1 =>
    obtain ⟨intDs, cs2⟩ := p1
    simp only [h1] at h
    cases h2 : jsonNumFrac cs2 with
    | none => simp only [h2] at h; exact absurd h (by simp)
    | some p2 =>
      obtain ⟨fracDs, cs3⟩ := p2
      simp only [h2] at h
      cases h3 : jsonNumExp cs3 with
      | none => simp only [h3] at h; exact absurd h (by simp)
      | some p3 =>
        obtain ⟨expVal, cs4⟩ := p3
        simp only [h3, Prod.mk.injEq, Option.some.injEq] at h
        rw [← uq_numSign cs, uq_lexInt _ _ _ h1, uq_numFrac _ _ _ h2,
          uq_numExp _ _ _ h3, ← h.2]

theorem jsonParseValue_zero (cs : List Char) : jsonParseValue 0 cs = none := by
  conv_lhs => rw [jsonParseValue.eq_def]

theorem jsonParseItems_zero (cs : List Char) : jsonParseItems 0 cs = none := by
  conv_lhs => rw [jsonParseItems.eq_def]

theorem jsonParsePairs_zero (cs : List Char) : jsonParsePairs 0 cs = none := by
  conv_lhs => rw [jsonParsePairs.eq_def]

theorem jsonParseValue_succ (f : Nat) (cs : List Char) :
    jsonParseValue (f + 1) cs
      = (match jsonSkipWs cs with
        | [] => none
        | c :: r =>
          if c = 'n' then
            match r with
            | 'u' :: ('l' :: ('l' :: r2)) => some (.null, r2)
            | _ => none
          else if c = 't' then
            match r with
            | 'r' :: ('u' :: ('e' :: r2)) => some (.bool true, r2)
            | _ => none
          else if c = 'f' then
            match r with
            | 'a' :: ('l' :: ('s' :: ('e' :: r2))) => some (.bool false, r2)
            | _ => none
          else if c = '"' then
            match jsonLexString [] r with
            | some (s, r2) => some (.str s, r2)
            | none => none
          else if c = '[' then
            match jsonSkipWs r with
            | [] => none
            | c2 :: r2 =>
              if c2 = ']' then some (.arr [], r2)
              else
                match jsonParseItems f r with
                | some (es, r3) => some (.arr es, r3)
                | none => none
          else if c = '{' then
            match jsonSkipWs r with
            | [] => none
            | c2 :: r2 =>
              if c2 = '}' then some (.obj [], r2)
              else
                match jsonParsePairs f r with
                | some (ms, r3) => some (.obj ms, r3)
                | none => none
          else if c = '-' || isDigitChar c then
            match jsonLexNum (c :: r) with
            | some (ne, r2) => some (.num ne.1 ne.2, r2)
            | none => none
          else none) := by
  conv_lhs => rw [jsonParseValue.eq_def]

theorem jsonParsePairs_succ (f : Nat) (cs : List Char) :
    jsonParsePairs (f + 1) cs
      = (match jsonSkipWs cs with
        | [] => none
        | c :: r =>
          if c = '"' then
            match jsonLexString [] r with
            | none => none
            | some (k, r1) =>
              match jsonSkipWs r1 with
              | [] => none
              | c2 :: r2 =>
                if c2 = ':' then
                  match jsonParseValue f r2 with
                  | none => none
                  | some (v, r3) =>
                    match jsonSkipWs r3 with
                    | [] => none
                    | c3 :: r4 =>
                      if c3 = ',' then
                        match jsonParsePairs f r4 with
                        | some (ms, r5) => some ((k, v) :: ms, r5)
                        | none => none
                      else if c3 = '}' then some ([(k, v)], r4)
                      else none
                else none
          else none) := by
  conv_lhs => rw [jsonParsePairs.eq_def]

theorem jsonParseItems_step (f : Nat) (cs : List Char) :
    jsonParseItems (f + 1) cs
      = (match jsonParseValue f cs with
        | none => none
        | some (v, r) =>
          match jsonSkipWs r with
          | [] => none
          | c :: r2 =>
            if c = ',' then
              match jsonParseItems f r2 with
              | some (vs, r3) => some (v :: vs, r3)
              | none => none
            else if c = ']' then some ([v], r2)
            else none) := by
  conv_lhs => rw [jsonParseItems.eq_def]

theorem kw_null_inv (r0 : List Char) (v : Json) (r' : List Char)
    (h : (match r0 with
          | 'u' :: ('l' :: ('l' :: r2)) => some (Json.null, r2)
          | _ => none) = some (v, r')) : r0 = 'u' :: ('l' :: ('l' :: r')) := by
  split at h
  next r2 =>
    simp only [Prod.mk.injEq, Option.some.injEq] at h
    rw [h.2]
  all_goals simp at h

theorem kw_true_inv (r0 : List Char) (v : Json) (r' : List Char)
    (h : (match r0 with
          | 'r' :: ('u' :: ('e' :: r2)) => some (Json.bool true, r2)
          | _ => none) = some (v, r')) : r0 = 'r' :: ('u' :: ('e' :: r')) := by
  split at h
  next r2 =>
    simp only [Prod.mk.injEq, Option.some.injEq] at h
    rw [h.2]
  all_goals simp at h

theorem kw_false_inv (r0 : List Char) (v : Json) (r' : List Char)
    (h : (match r0 with
          | 'a' :: ('l' :: ('s' :: ('e' :: r2))) => some (Json.bool false, r2)
          | _ => none) = some (v, r')) : r0 = 'a' :: ('l' :: ('s' :: ('e' :: r'))) := by
  split at h
  next r2 =>
    simp only [Prod.mk.injEq, Option.some.injEq] at h
    rw [h.2]
  all_goals simp at h

theorem uq_parse (fuel : Nat) :
    (∀ cs v r, jsonParseValue fuel cs = some (v, r) → uq cs % 2 = uq r % 2) ∧
    (∀ cs vs r, jsonParseItems fuel cs = some (vs, r) → uq cs % 2 = uq r % 2) ∧
    (∀ cs ms r, jsonParsePairs fuel cs = some (ms, r) → uq cs % 2 = uq r % 2) := by
  induction fuel with
  | zero =>
    refine ⟨?_, ?_, ?_⟩
    · intro cs v r h
      rw [jsonParseValue_zero] at h
      exact absurd h (by simp)
    · intro cs vs r h
      rw [jsonParseItems_zero] at h
      exact absurd h (by simp)
    · intro cs ms r h
      rw [jsonParsePairs_zero] at h
      exact absurd h (by simp)
  | succ f ih =>
    obtain ⟨ihv, ihi, ihp⟩ := ih
    refine ⟨?_, ?_, ?_⟩
    · intro cs v r' h
      rw [jsonParseValue_succ] at h
      cases hskip : jsonSkipWs cs with
      | nil => rw [hskip] at h; simp at h
      | cons c r0 =>
        rw [hskip] at h
        simp only [] at h
        have hcs : uq (c :: r0) = uq cs := by
          rw [← hskip]
          exact uq_skipWs cs
        split_ifs at h with h1 h2 h3 h4 h5 h6 h7
        · subst h1
          have hsh := kw_null_inv r0 v r' h
          rw [hsh] at hcs
          rw [uq_plain _ _ (by decide) (by decide), uq_plain _ _ (by decide) (by decide),
            uq_plain _ _ (by decide) (by decide), uq_plain _ _ (by decide) (by decide)] at hcs
          omega
        · subst h2
          have hsh := kw_true_inv r0 v r' h
          rw [hsh] at hcs
          rw [uq_plain _ _ (by decide) (by decide), uq_plain _ _ (by decide) (by decide),
            uq_plain _ _ (by decide) (by decide), uq_plain _ _ (by decide) (by decide)] at hcs
          omega
        · subst h3
          have hsh := kw_false_inv r0 v r' h
          rw [hsh] at hcs
          rw [uq_plain _ _ (by decide) (by decide), uq_plain _ _ (by decide) (by decide),
            uq_plain _ _ (by decide) (by decide), uq_plain _ _ (by decide) (by decide),
            uq_plain _ _ (by decide) (by decide)] at hcs
          omega
        · subst h4
          cases hls : jsonLexString [] r0 with
          | none => simp only [hls] at h; exact absurd h (by simp)
          | some p =>
            obtain ⟨st, r2⟩ := p
            simp only [hls, Prod.mk.injEq, Option.some.injEq] at h
            have hlq := uq_lexString r0 [] st r2 hls
            rw [uq_quote, hlq, h.2] at hcs
            omega
        · subst h5
          cases hskip2 : jsonSkipWs r0 with
          | nil => rw [hskip2] at h; simp at h
          | cons c2 r2 =>
            rw [hskip2] at h
            simp only [] at h
            have hr0 : uq (c2 :: r2) = uq r0 := by
              rw [← hskip2]
              exact uq_skipWs r0
            by_cases hc2 : c2 = ']'
            · rw [if_pos hc2] at h
              simp only [Prod.mk.injEq, Option.some.injEq] at h
              subst hc2
              rw [uq_plain _ _ (by decide) (by decide)] at hcs
              rw [uq_plain _ _ (by decide) (by decide), h.2] at hr0
              omega
            · rw [if_neg hc2] at h
              cases hpi : jsonParseItems f r0 with
              | none => simp only [hpi] at h; exact absurd h (by simp)
              | some p =>
                obtain ⟨es, r3⟩ := p
                simp only [hpi, Prod.mk.injEq, Option.some.injEq] at h
                have hih := ihi r0 es r3 hpi
                rw [uq_plain _ _ (by decide) (by decide)] at hcs
                rw [h.2] at hih
                omega
        · subst h6
          cases hskip2 : jsonSkipWs r0 with
          | nil => rw [hskip2] at h; simp at h
          | cons c2 r2 =>
            rw [hskip2] at h
            simp only [] at h
            have hr0 : uq (c2 :: r2) = uq r0 := by
              rw [← hskip2]
              exact uq_skipWs r0
            by_cases hc2 : c2 = '}'
            · rw [if_pos hc2] at h
              simp only [Prod.mk.injEq, Option.some.injEq] at h
              subst hc2
              rw [uq_plain _ _ (by decide) (by decide)] at hcs
              rw [uq_plain _ _ (by decide) (by decide), h.2] at hr0
              omega
            · rw [if_neg hc2] at h
              cases hpp : jsonParsePairs f r0 with
              | none => simp only [hpp] at h; exact absurd h (by simp)
              | some p =>
                obtain ⟨ms0, r3⟩ := p
                simp only [hpp, Prod.mk.injEq, Option.some.injEq] at h
                have hih := ihp r0 ms0 r3 hpp
                rw [uq_plain _ _ (by decide) (by decide)] at hcs
                rw [h.2] at hih
                omega
        · cases hn : jsonLexNum (c :: r0) with
          | none => simp only [hn] at h; exact absurd h (by simp)
          | some p =>
            obtain ⟨ne0, r2⟩ := p
            simp only [hn, Prod.mk.injEq, Option.some.injEq] at h
            have hq := uq_lexNum (c :: r0) ne0 r2 hn
            rw [h.2] at hq
            omega
    · intro cs vs r' h
      rw [jsonParseItems_step] at h
      cases hv : jsonParseValue f cs with
      | none => simp only [hv] at h; exact absurd h (by simp)
      | some p =>
        obtain ⟨v0, r1⟩ := p
        simp only [hv] at h
        have hv1 := ihv cs v0 r1 hv
        cases hskip : jsonSkipWs r1 with
        | nil => rw [hskip] at h; simp at h
        | cons c r2 =>
          rw [hskip] at h
          simp only [] at h
          have hr1 : uq (c :: r2) = uq r1 := by
            rw [← hskip]
            exact uq_skipWs r1
          by_cases hc : c = ','
          · rw [if_pos hc] at h
            cases hri : jsonParseItems f r2 with
            | none => simp only [hri] at h; exact absurd h (by simp)
            | some p2 =>
              obtain ⟨vs2, r3⟩ := p2
              simp only [hri, Prod.mk.injEq, Option.some.injEq] at h
              have hih := ihi r2 vs2 r3 hri
              subst hc
              rw [uq_plain _ _ (by decide) (by decide)] at hr1
              rw [h.2] at hih
              omega
          · rw [if_neg hc] at h
            by_cases hc2 : c = ']'
            · rw [if_pos hc2] at h
              simp only [Prod.mk.injEq, Option.some.injEq] at h
              subst hc2
              rw [uq_plain _ _ (by decide) (by decide), h.2] at hr1
              omega
            · rw [if_neg hc2] at h
              exact absurd h (by simp)
    · intro cs ms r' h
      rw [jsonParsePairs_succ] at h
      cases hskip : jsonSkipWs cs with
      | nil => rw [hskip] at h; simp at h
      | cons c r0 =>
        rw [hskip] at h
        simp only [] at h
        have hcs : uq (c :: r0) = uq cs := by
          rw [← hskip]
          exact uq_skipWs cs
        by_cases hq : c = '"'
        · rw [if_pos hq] at h
          subst hq
          cases hk : jsonLexString [] r0 with
          | none => simp only [hk] at h; exact absurd h (by simp)
          | some p =>
            obtain ⟨k, r1⟩ := p
            simp only [hk] at h
            have hlq := uq_lexString r0 [] k r1 hk
            cases hskip2 : jsonSkipWs r1 with
            | nil => rw [hskip2] at h; simp at h
            | cons c2 r2 =>
              rw [hskip2] at h
              simp only [] at h
              have hr1 : uq (c2 :: r2) = uq r1 := by
                rw [← hskip2]
                exact uq_skipWs r1
              by_cases hc2 : c2 = ':'
              · rw [if_pos hc2] at h
                subst hc2
                cases hv : jsonParseValue f r2 with
                | none => simp only [hv] at h; exact absurd h (by simp)
                | some p2 =>
                  obtain ⟨v0, r3⟩ := p2
                  simp only [hv] at h
                  have hv1 := ihv r2 v0 r3 hv
                  cases hskip3 : jsonSkipWs r3 with
                  | nil => rw [hskip3] at h; simp at h
                  | cons c3 r4 =>
                    rw [hskip3] at h
                    simp only [] at h
                    have hr3 : uq (c3 :: r4) = uq r3 := by
                      rw [← hskip3]
                      exact uq_skipWs r3
                    by_cases hc3 : c3 = ','
                    · rw [if_pos hc3] at h
                      subst hc3
                      cases hp2 : jsonParsePairs f r4 with
                      | none => simp only [hp2] at h; exact absurd h (by simp)
                      | some p3 =>
                        obtain ⟨ms2, r5⟩ := p3
                        simp only [hp2, Prod.mk.injEq, Option.some.injEq] at h
                        have hih := ihp r4 ms2 r5 hp2
                        rw [uq_quote] at hcs
                        rw [uq_plain _ _ (by decide) (by decide)] at hr1
                        rw [uq_plain _ _ (by decide) (by decide)] at hr3
                        rw [h.2] at hih
                        omega
                    · rw [if_neg hc3] at h
                      by_cases hc4 : c3 = '}'
                      · rw [if_pos hc4] at h
                        simp only [Prod.mk.injEq, Option.some.injEq] at h
                        subst hc4
                        rw [uq_quote] at hcs
                        rw [uq_plain _ _ (by decide) (by decide)] at hr1
                        rw [uq_plain _ _ (by decide) (by decide), h.2] at hr3
                        omega
                      · rw [if_neg hc4] at h
                        exact absurd h (by simp)
              · rw [if_neg hc2] at h
                exact absurd h (by simp)
        · rw [if_neg hq] at h
          exact absurd h (by simp)

/-- Any text `JSON.parse` accepts has an even number of unescaped quotes. -/
theorem uq_parseText (cs : List Char) (v : Json) (h : jsonParseText cs = some v) :
    uq cs % 2 = 0 := by
  unfold jsonParseText at h
  cases hv : jsonParseValue (2 * cs.length + 2) cs with
  | none => rw [hv] at h; simp at h
  | some pr =>
    obtain ⟨v0, r⟩ := pr
    rw [hv] at h
    have h' : (if (jsonSkipWs r).isEmpty then some v0 else none) = some v := h
    split_ifs at h' with hws
    · have hr : jsonSkipWs r = [] := by
        rwa [List.isEmpty_iff] at hws
      have h1 := (uq_parse (2 * cs.length + 2)).1 cs v0 r hv
      have h2 : uq r = 0 := by
        rw [← uq_skipWs r, hr, uq_nil]
      omega

theorem closerHead_nil : closerHead [] = false := rfl

/-! ## Brace positions inside rendered text

Every occurrence of `{` strictly inside a rendered value either starts a
nested rendered value followed by a separator or closer, or lies inside a
string literal, in which case the suffix it starts has an odd number of
unescaped quotes. -/

mutual

theorem bs_val : ∀ (v : Json) (a b tail : List Char),
    closerHead tail = true → uq tail % 2 = 0 →
    renderJson v ++ tail = a ++ '{' :: b → a.length < (renderJson v).length →
    (∃ w c0 t, '{' :: b = renderJson w ++ (c0 :: t) ∧ (c0 = ',' ∨ c0 = ']' ∨ c0 = '}'))
      ∨ uq ('{' :: b) % 2 = 1
  | .null, a, b, tail, hcl, hpar, h, hlen => by
    rw [renderJson_null_eq] at h hlen
    obtain ⟨b1, hX, _⟩ := split_at_lt _ _ _ _ _ h hlen
    exfalso
    have hmem : '{' ∈ (['n', 'u', 'l', 'l'] : List Char) := by
      rw [hX]
      simp
    simp at hmem
  | .bool true, a, b, tail, hcl, hpar, h, hlen => by
    rw [renderJson_true_eq] at h hlen
    obtain ⟨b1, hX, _⟩ := split_at_lt _ _ _ _ _ h hlen
    exfalso
    have hmem : '{' ∈ (['t', 'r', 'u', 'e'] : List Char) := by
      rw [hX]
      simp
    simp at hmem
  | .bool false, a, b, tail, hcl, hpar, h, hlen => by
    rw [renderJson_false_eq] at h hlen
    obtain ⟨b1, hX, _⟩ := split_at_lt _ _ _ _ _ h hlen
    exfalso
    have hmem : '{' ∈ (['f', 'a', 'l', 's', 'e'] : List Char) := by
      rw [hX]
      simp
    simp at hmem
  | .num m e, a, b, tail, hcl, hpar, h, hlen => by
    rw [renderJson_num_eq] at h hlen
    obtain ⟨b1, hX, _⟩ := split_at_lt _ _ _ _ _ h hlen
    exfalso
    have hmem : '{' ∈ renderNum m e := by
      rw [hX]
      simp
    exact (renderNum_chars m e '{' hmem).1 rfl
  | .str s, a, b, tail, hcl, hpar, h, hlen => by
    have hsh : renderJson (.str s) ++ tail
        = '"' :: (s.flatMap escapeChar ++ ('"' :: tail)) := by
      rw [renderJson_str_eq, renderStr]
      simp [List.append_assoc]
    rw [hsh] at h
    have hlen2 : (renderJson (.str s)).length = (s.flatMap escapeChar).length + 2 := by
      rw [renderJson_str_eq, renderStr]
      simp
    cases a with
    | nil =>
      exfalso
      rw [List.nil_append] at h
      injection h with h0 _
      exact absurd h0 (by decide)
    | cons a0 a1 =>
      rw [List.cons_append] at h
      injection h with h0 htl
      rcases append_split_char _ _ _ _ _ htl with ⟨b1, hfl, hb⟩ | ⟨a2, ha2, hY⟩
      · obtain ⟨hu1, hq1⟩ := split_flat s a1 b1 hfl
        right
        rw [uq_plain _ _ (by decide) (by decide), hb, uq_append _ _ hu1, hq1, uq_quote]
        omega
      · exfalso
        cases a2 with
        | nil =>
          rw [List.nil_append] at hY
          injection hY with h0' _
          exact absurd h0' (by decide)
        | cons x a3 =>
          rw [hlen2] at hlen
          rw [ha2] at hlen
          simp [List.length_append, List.length_cons] at hlen
  | .arr vs, a, b, tail, hcl, hpar, h, hlen => by
    have hsh : renderJson (.arr vs) ++ tail = '[' :: (renderItems vs ++ (']' :: tail)) := by
      rw [renderJson_arr_eq]
      simp [List.append_assoc]
    rw [hsh] at h
    have hlenr : (renderJson (.arr vs)).length = (renderItems vs).length + 2 := by
      rw [renderJson_arr_eq]
      simp
    cases a with
    | nil =>
      exfalso
      rw [List.nil_append] at h
      injection h with h0 _
      exact absurd h0 (by decide)
    | cons a0 a1 =>
      rw [List.cons_append] at h
      injection h with h0 htl
      rcases append_split_char _ _ _ _ _ htl with ⟨b1, hfl, hb⟩ | ⟨a2, ha2, hY⟩
      · have heq : renderItems vs ++ (']' :: tail) = a1 ++ '{' :: b := by
          rw [hfl, hb]
          simp [List.append_assoc]
        have hlen3 : a1.length < (renderItems vs).length := by
          have hfl' := congrArg List.length hfl
          simp [List.length_append, List.length_cons] at hfl'
          omega
        exact bs_items vs a1 b (']' :: tail) (by rw [closerHead_cons]; decide)
          (by rw [uq_plain _ _ (by decide) (by decide)]; exact hpar) heq hlen3
      · exfalso
        cases a2 with
        | nil =>
          rw [List.nil_append] at hY
          injection hY with h0' _
          exact absurd h0' (by decide)
        | cons x a3 =>
          rw [hlenr] at hlen
          rw [ha2] at hlen
          simp [List.length_append, List.length_cons] at hlen
  | .obj ms, a, b, tail, hcl, hpar, h, hlen => by
    cases a with
    | nil =>
      left
      cases tail with
      | nil =>
        rw [closerHead_nil] at hcl
        exact absurd hcl (by decide)
      | cons c0 t =>
        rw [List.nil_append] at h
        rw [closerHead_cons] at hcl
        simp only [Bool.or_eq_true, decide_eq_true_eq] at hcl
        refine ⟨.obj ms, c0, t, h.symm, ?_⟩
        tauto
    | cons a0 a1 =>
      have hsh : renderJson (.obj ms) ++ tail
          = '{' :: (renderMembers ms ++ ('}' :: tail)) := by
        rw [renderJson_obj_eq]
        simp [List.append_assoc]
      rw [hsh] at h
      rw [List.cons_append] at h
      injection h with h0 htl
      rcases append_split_char _ _ _ _ _ htl with ⟨b1, hfl, hb⟩ | ⟨a2, ha2, hY⟩
      · have heq : renderMembers ms ++ ('}' :: tail) = a1 ++ '{' :: b := by
          rw [hfl, hb]
          simp [List.append_assoc]
        have hlen3 : a1.length < (renderMembers ms).length := by
          have hfl' := congrArg List.length hfl
          simp [List.length_append, List.length_cons] at hfl'
          omega
        exact bs_members ms a1 b ('}' :: tail) (by rw [closerHead_cons]; decide)
          (by rw [uq_plain _ _ (by decide) (by decide)]; exact hpar) heq hlen3
      · exfalso
        cases a2 with
        | nil =>
          rw [List.nil_append] at hY
          injection hY with h0' _
          exact absurd h0' (by decide)
        | cons x a3 =>
          have hlenr : (renderJson (.obj ms)).length = (renderMembers ms).length + 2 := by
            rw [renderJson_obj_eq]
            simp
          rw [hlenr] at hlen
          rw [ha2] at hlen
          simp [List.length_append, List.length_cons] at hlen
termination_by v a b tail hc hp h hl => sizeOf v

theorem bs_items : ∀ (vs : List Json) (a b tail : List Char),
    closerHead tail = true → uq tail % 2 = 0 →
    renderItems vs ++ tail = a ++ '{' :: b → a.length < (renderItems vs).length →
    (∃ w c0 t, '{' :: b = renderJson w ++ (c0 :: t) ∧ (c0 = ',' ∨ c0 = ']' ∨ c0 = '}'))
      ∨ uq ('{' :: b) % 2 = 1
  | [], a, b, tail, hcl, hpar, h, hlen => by
    rw [renderItems_nil_eq] at hlen
    simp at hlen
  | [v], a, b, tail, hcl, hpar, h, hlen => by
    rw [renderItems_single_eq] at h hlen
    exact bs_val v a b tail hcl hpar h hlen
  | v :: w :: ws, a, b, tail, hcl, hpar, h, hlen => by
    have hsh : renderItems (v :: w :: ws) ++ tail
        = renderJson v ++ (',' :: (renderItems (w :: ws) ++ tail)) := by
      rw [renderItems_cons_eq]
      simp [List.append_assoc]
    rw [hsh] at h
    rcases append_split_char _ _ _ _ _ h with ⟨b1, hfl, hb⟩ | ⟨a2, ha2, hY⟩
    · have heq : renderJson v ++ (',' :: (renderItems (w :: ws) ++ tail))
          = a ++ '{' :: b := by
        rw [hfl, hb]
        simp [List.append_assoc]
      have hlen3 : a.length < (renderJson v).length := by
        have hfl' := congrArg List.length hfl
        simp [List.length_append, List.length_cons] at hfl'
        omega
      have hpar2 : uq (',' :: (renderItems (w :: ws) ++ tail)) % 2 = 0 := by
        rw [uq_plain _ _ (by decide) (by decide), uq_append _ _ (uqr_items (w :: ws)).1]
        have := (uqr_items (w :: ws)).2
        omega
      exact bs_val v a b (',' :: (renderItems (w :: ws) ++ tail))
        (by rw [closerHead_cons]; decide) hpar2 heq hlen3
    · cases a2 with
      | nil =>
        exfalso
        rw [List.nil_append] at hY
        injection hY with h0' _
        exact absurd h0' (by decide)
      | cons x a3 =>
        rw [List.cons_append] at hY
        injection hY with hx htl2
        have hlen3 : a3.length < (renderItems (w :: ws)).length := by
          have h1 := congrArg List.length hsh
          have h2 := congrArg List.length ha2
          simp [List.length_append, List.length_cons] at h1 h2
          omega
        exact bs_items (w :: ws) a3 b tail hcl hpar htl2 hlen3
termination_by vs a b tail hc hp h hl => sizeOf vs

theorem bs_members : ∀ (ms : List (List Char × Json)) (a b tail : List Char),
    closerHead tail = true → uq tail % 2 = 0 →
    renderMembers ms ++ tail = a ++ '{' :: b → a.length < (renderMembers ms).length →
    (∃ w c0 t, '{' :: b = renderJson w ++ (c0 :: t) ∧ (c0 = ',' ∨ c0 = ']' ∨ c0 = '}'))
      ∨ uq ('{' :: b) % 2 = 1
  | [], a, b, tail, hcl, hpar, h, hlen => by
    rw [renderMembers_nil_eq] at hlen
    simp at hlen
  | [(k, v)], a, b, tail, hcl, hpar, h, hlen => by
    have hsh : renderMembers [(k, v)] ++ tail
        = '"' :: (k.flatMap escapeChar ++ ('"' :: (':' :: (renderJson v ++ tail)))) := by
      rw [renderMembers_single_eq, renderStr]
      simp [List.append_assoc]
    rw [hsh] at h
    have hlenm : (renderMembers [(k, v)]).length
        = (k.flatMap escapeChar).length + 3 + (renderJson v).length := by
      rw [renderMembers_single_eq, renderStr]
      simp [List.length_append, List.length_cons]
      omega
    cases a with
    | nil =>
      exfalso
      rw [List.nil_append] at h
      injection h with h0 _
      exact absurd h0 (by decide)
    | cons a0 a1 =>
      rw [List.cons_append] at h
      injection h with h0 htl
      rcases append_split_char _ _ _ _ _ htl with ⟨b1, hfl, hb⟩ | ⟨a2, ha2, hY⟩
      · obtain ⟨hu1, hq1⟩ := split_flat k a1 b1 hfl
        right
        rw [uq_plain _ _ (by decide) (by decide), hb, uq_append _ _ hu1, hq1, uq_quote,
          uq_plain _ _ (by decide) (by decide), uq_append _ _ (uqr_val v).1]
        have := (uqr_val v).2
        omega
      · cases a2 with
        | nil =>
          exfalso
          rw [List.nil_append] at hY
          injection hY with h0' _
          exact absurd h0' (by decide)
        | cons x a3 =>
          rw [List.cons_append] at hY
          injection hY with hx hY2
          cases a3 with
          | nil =>
            exfalso
            rw [List.nil_append] at hY2
            injection hY2 with h0' _
            exact absurd h0' (by decide)
          | cons y a4 =>
            rw [List.cons_append] at hY2
            injection hY2 with hy hY3
            have hlen4 : a4.length < (renderJson v).length := by
              have h2 := congrArg List.length ha2
              simp [List.length_append, List.length_cons] at h2
              rw [hlenm] at hlen
              simp [List.length_cons] at hlen
              omega
            exact bs_val v a4 b tail hcl hpar hY3 hlen4
  | (k, v) :: p :: ms2, a, b, tail, hcl, hpar, h, hlen => by
    have hsh : renderMembers ((k, v) :: p :: ms2) ++ tail
        = '"' :: (k.flatMap escapeChar ++ ('"' :: (':' :: (renderJson v
            ++ (',' :: (renderMembers (p :: ms2) ++ tail)))))) := by
      rw [renderMembers_cons_eq, renderStr]
      simp [List.append_assoc]
    rw [hsh] at h
    have hlenm : (renderMembers ((k, v) :: p :: ms2)).length
        = (k.flatMap escapeChar).length + 4 + (renderJson v).length
          + (renderMembers (p :: ms2)).length := by
      rw [renderMembers_cons_eq, renderStr]
      simp [List.length_append, List.length_cons]
      omega
    cases a with
    | nil =>
      exfalso
      rw [List.nil_append] at h
      injection h with h0 _
      exact absurd h0 (by decide)
    | cons a0 a1 =>
      rw [List.cons_append] at h
      injection h with h0 htl
      rcases append_split_char _ _ _ _ _ htl with ⟨b1, hfl, hb⟩ | ⟨a2, ha2, hY⟩
      · obtain ⟨hu1, hq1⟩ := split_flat k a1 b1 hfl
        right
        rw [uq_plain _ _ (by decide) (by decide), hb, uq_append _ _ hu1, hq1, uq_quote,
          uq_plain _ _ (by decide) (by decide), uq_append _ _ (uqr_val v).1,
          uq_plain _ _ (by decide) (by decide), uq_append _ _ (uqr_members (p :: ms2)).1]
        have h1 := (uqr_val v).2
        have h2 := (uqr_members (p :: ms2)).2
        omega
      · cases a2 with
        | nil =>
          exfalso
          rw [List.nil_append] at hY
          injection hY with h0' _
          exact absurd h0' (by decide)
        | cons x a3 =>
          rw [List.cons_append] at hY
          injection hY with hx hY2
          cases a3 with
          | nil =>
            exfalso
            rw [List.nil_append] at hY2
            injection hY2 with h0' _
            exact absurd h0' (by decide)
          | cons y a4 =>
            rw [List.cons_append] at hY2
            injection hY2 with hy hY3
            rcases append_split_char _ _ _ _ _ hY3 with ⟨b2, hfv, hb2⟩ | ⟨a5, ha5, hY4⟩
            · have hlen4 : a4.length < (renderJson v).length := by
                have hfv' := congrArg List.length hfv
                simp [List.length_append, List.length_cons] at hfv'
                omega
              have hpar2 : uq (',' :: (renderMembers (p :: ms2) ++ tail)) % 2 = 0 := by
                rw [uq_plain _ _ (by decide) (by decide),
                  uq_append _ _ (uqr_members (p :: ms2)).1]
                have := (uqr_members (p :: ms2)).2
                omega
              exact bs_val v a4 b (',' :: (renderMembers (p :: ms2) ++ tail))
                (by rw [closerHead_cons]; decide) hpar2 hY3 hlen4
            · cases a5 with
              | nil =>
                exfalso
                rw [List.nil_append] at hY4
                injection hY4 with h0' _
                exact absurd h0' (by decide)
              | cons z a6 =>
                rw [List.cons_append] at hY4
                injection hY4 with hz htl3
                have hlen6 : a6.length < (renderMembers (p :: ms2)).length := by
                  have h2 := congrArg List.length ha2
                  have h5 := congrArg List.length ha5
                  simp [List.length_append, List.length_cons] at h2 h5
                  rw [hlenm] at hlen
                  simp [List.length_cons] at hlen
                  omega
                exact bs_members (p :: ms2) a6 b tail hcl hpar htl3 hlen6
termination_by ms a b tail hc hp h hl => sizeOf ms

end

/-! ## The scan loop on texts ending in a rendered findings object -/

theorem parse_fail_of_bs (b : List Char)
    (hcase : (∃ w c0 t, '{' :: b = renderJson w ++ (c0 :: t)
        ∧ (c0 = ',' ∨ c0 = ']' ∨ c0 = '}'))
      ∨ uq ('{' :: b) % 2 = 1) :
    jsonParseText ('{' :: b) = none := by
  rcases hcase with ⟨w, c0, t, heq, hc0⟩ | hodd
  · rw [heq]
    unfold jsonParseText
    have hfuel : (renderJson w).length
        < 2 * (renderJson w ++ (c0 :: t)).length + 2 := by
      rw [List.length_append]
      omega
    have hnd : numDelim (c0 :: t) = true := by
      rcases hc0 with rfl | rfl | rfl <;> (rw [numDelim_cons]; decide)
    have hval := rt_val w (2 * (renderJson w ++ (c0 :: t)).length + 2) (c0 :: t) hfuel hnd
    rw [hval]
    have hskip : jsonSkipWs (c0 :: t) = c0 :: t := by
      rcases hc0 with rfl | rfl | rfl <;> exact jsonSkipWs_cons _ _ (by decide)
    simp [hskip]
  · cases hres : jsonParseText ('{' :: b) with
    | none => rfl
    | some v =>
      have := uq_parseText _ _ hres
      omega

theorem lastBrace_zero (cs : List Char) :
    lastBrace cs 0 = (if cs[0]? = some '{' then some 0 else none) := by
  conv_lhs => rw [lastBrace.eq_def]

theorem lastBrace_succ (cs : List Char) (i : Nat) :
    lastBrace cs (i + 1)
      = (if cs[i + 1]? = some '{' then some (i + 1) else lastBrace cs i) := by
  conv_lhs => rw [lastBrace.eq_def]

theorem lastBrace_some (cs : List Char) : ∀ (k j : Nat), lastBrace cs k = some j →
    j ≤ k ∧ cs[j]? = some '{'
  | 0, j, h => by
    rw [lastBrace_zero] at h
    split_ifs at h with hb
    · simp only [Option.some.injEq] at h
      subst h
      exact ⟨Nat.le_refl 0, hb⟩
  | k + 1, j, h => by
    rw [lastBrace_succ] at h
    split_ifs at h with hb
    · simp only [Option.some.injEq] at h
      subst h
      exact ⟨Nat.le_refl _, hb⟩
    · have ih := lastBrace_some cs k j h
      exact ⟨by omega, ih.2⟩

theorem lastBrace_ge (cs : List Char) : ∀ (k p0 : Nat), cs[p0]? = some '{' → p0 ≤ k →
    ∃ j, lastBrace cs k = some j ∧ p0 ≤ j
  | 0, p0, hp, hk => by
    have hp0 : p0 = 0 := by omega
    subst hp0
    exact ⟨0, by rw [lastBrace_zero, if_pos hp], Nat.le_refl 0⟩
  | k + 1, p0, hp, hk => by
    by_cases hb : cs[k + 1]? = some '{'
    · exact ⟨k + 1, by rw [lastBrace_succ, if_pos hb], by omega⟩
    · by_cases hpk : p0 = k + 1
      · subst hpk
        exact absurd hp hb
      · obtain ⟨j, hj, hpj⟩ := lastBrace_ge cs k p0 hp (by omega)
        exact ⟨j, by rw [lastBrace_succ, if_neg hb]; exact hj, hpj⟩

theorem drop_append_ge (l1 l2 : List Char) : ∀ (j : Nat), l1.length ≤ j →
    (l1 ++ l2).drop j = l2.drop (j - l1.length)
  | j, h => by
    induction l1 generalizing j with
    | nil => simp
    | cons x t ih =>
      cases j with
      | zero => simp at h
      | succ j2 =>
        rw [List.cons_append, List.drop_succ_cons]
        rw [ih j2 (by simp [List.length_cons] at h; omega)]
        congr 1
        simp [List.length_cons]

theorem getElem?_of_drop (l : List Char) : ∀ (j : Nat) (c : Char) (b : List Char),
    l.drop j = c :: b → l[j]? = some c := by
  induction l with
  | nil => intro j c b h; simp at h
  | cons x t ih =>
    intro j c b h
    cases j with
    | zero =>
      rw [List.drop_zero] at h
      injection h with h1 _
      simp [h1]
    | succ j2 =>
      rw [List.drop_succ_cons] at h
      rw [List.getElem?_cons_succ]
      exact ih j2 c b h

theorem drop_of_getElem? (l : List Char) : ∀ (j : Nat) (c : Char),
    l[j]? = some c → ∃ b, l.drop j = c :: b := by
  induction l with
  | nil => intro j c h; simp at h
  | cons x t ih =>
    intro j c h
    cases j with
    | zero =>
      simp at h
      exact ⟨t, by rw [List.drop_zero, h]⟩
    | succ j2 =>
      rw [List.getElem?_cons_succ] at h
      rw [List.drop_succ_cons]
      exact ih j2 c h

theorem getElem?_lt (l : List Char) (j : Nat) (c : Char) (h : l[j]? = some c) :
    j < l.length := by
  by_contra hn
  rw [List.getElem?_eq_none (by omega)] at h
  simp at h

theorem extractScan_reaches (trimmed : List Char) (p0 : Nat) (V : Json)
    (hbrace : trimmed[p0]? = some '{')
    (hp0 : reviewCandidate trimmed p0 = some V)
    (hall : ∀ j, p0 < j → trimmed[j]? = some '{' → reviewCandidate trimmed j = none) :
    ∀ i, p0 ≤ i → trimmed[i]? = some '{' → extractScan trimmed i = .ok V := by
  intro i
  induction i using Nat.strongRecOn with
  | _ i IH =>
    intro hpi hbr
    by_cases hip : i = p0
    · subst hip
      unfold extractScan
      rw [hp0]
    · have hgt : p0 < i := lt_of_le_of_ne hpi (Ne.symm hip)
      have hcand := hall i hgt hbr
      obtain ⟨j, hj, hpj⟩ := lastBrace_ge trimmed (i - 1) p0 hbrace (by omega)
      have hjsome := lastBrace_some trimmed (i - 1) j hj
      have hji : j < i := by omega
      unfold extractScan
      simp only [hcand, hj]
      rw [dif_pos hji]
      exact IH j hji hpj hjsome.2

theorem extractReviewJson_eval (output : List Char) (h : (jsTrim output).isEmpty = false) :
    extractReviewJson output
      = (match lastBrace (jsTrim output) ((jsTrim output).length - 1) with
        | none => .parseFailure
        | some i => extractScan (jsTrim output) i) := by
  show (if (jsTrim output).isEmpty then ExtractOutcome.emptyOutput
    else match lastBrace (jsTrim output) ((jsTrim output).length - 1) with
      | none => .parseFailure
      | some i => extractScan (jsTrim output) i) = _
  rw [h]
  simp

/-- Claim C2: for every output whose trimmed text ends in the rendered JSON
of an object carrying a `findings` key, `extractReviewJson` returns exactly
that parsed object, regardless of the prose before it — including prose with
unmatched opening braces. The scan tries brace positions from the rightmost
leftward; every brace strictly inside the rendered object fails to parse (it
either starts a nested value followed by a separator or closer, or sits in a
string literal and leaves an odd number of unescaped quotes), so the first
accepted candidate is the rendered object itself. -/
theorem extractReviewJson_spec (output p : List Char) (ms : List (List Char × Json))
    (hdec : jsTrim output = p ++ renderJson (.obj ms))
    (hkey : jsHasKey (.obj ms) ("findings".toList) = true) :
    extractReviewJson output = .ok (.obj ms) := by
  have hRsh : renderJson (.obj ms) = '{' :: (renderMembers ms ++ ['}']) :=
    renderJson_obj_eq ms
  have hRlen : 2 ≤ (renderJson (.obj ms)).length := by
    rw [hRsh, List.length_cons, List.length_append, List.length_singleton]
    omega
  have hlen_tr : (jsTrim output).length = p.length + (renderJson (.obj ms)).length := by
    rw [hdec, List.length_append]
  have hdropP : (jsTrim output).drop p.length = renderJson (.obj ms) := by
    rw [hdec, drop_append_ge p _ p.length (Nat.le_refl _), Nat.sub_self, List.drop_zero]
  have hbrace : (jsTrim output)[p.length]? = some '{' := by
    apply getElem?_of_drop _ p.length '{' (renderMembers ms ++ ['}'])
    rw [hdropP, hRsh]
  have hrev : (jsTrim output).reverse.head? = some '}' := by
    rw [hdec, List.reverse_append, hRsh]
    simp
  have hsufftrim : ∀ j b', (jsTrim output).drop j = '{' :: b' →
      jsTrim ((jsTrim output).drop j) = (jsTrim output).drop j := by
    intro j b' hd
    apply jsTrim_id
    · intro c t hct
      rw [hd] at hct
      injection hct with h1 _
      rw [← h1]
      decide
    · intro c t hct
      have hjlen : j < (jsTrim output).length := by
        by_contra hn
        rw [List.drop_eq_nil_iff.mpr (by omega)] at hd
        exact absurd hd (by simp)
      have hh := reverse_drop_head (jsTrim output) j hjlen '}' hrev
      rw [hct] at hh
      simp only [List.head?_cons, Option.some.injEq] at hh
      rw [hh]
      decide
  have hfail : ∀ j, p.length < j → (jsTrim output)[j]? = some '{' →
      reviewCandidate (jsTrim output) j = none := by
    intro j hj hbr
    obtain ⟨b', hd⟩ := drop_of_getElem? (jsTrim output) j '{' hbr
    have hjl : j < (jsTrim output).length := getElem?_lt _ _ _ hbr
    have hd' : (renderJson (.obj ms)).drop (j - p.length) = '{' :: b' := by
      rw [← hd, hdec, drop_append_ge p _ j (by omega)]
    set d := j - p.length with hdd
    have hdpos : 0 < d := by omega
    have hdlen : d < (renderJson (.obj ms)).length := by omega
    have hsplitR : renderJson (.obj ms) = (renderJson (.obj ms)).take d ++ '{' :: b' := by
      conv_lhs => rw [← List.take_append_drop d (renderJson (.obj ms))]
      rw [hd']
    have htake_len : ((renderJson (.obj ms)).take d).length = d := by
      rw [List.length_take]
      omega
    have hbs : (∃ w c0 t, '{' :: b' = renderJson w ++ (c0 :: t)
        ∧ (c0 = ',' ∨ c0 = ']' ∨ c0 = '}')) ∨ uq ('{' :: b') % 2 = 1 := by
      cases hA : (renderJson (.obj ms)).take d with
      | nil =>
        rw [hA] at htake_len
        simp at htake_len
        omega
      | cons a0 a1 =>
        have h1 : renderJson (.obj ms) = (a0 :: a1) ++ '{' :: b' := by
          rw [← hA]
          exact hsplitR
        rw [hRsh, List.cons_append] at h1
        injection h1 with h0 h2
        rcases append_split_char (renderMembers ms) ['}'] a1 b' '{' h2 with
          ⟨b1, hfl, hb⟩ | ⟨a2, ha2, hY⟩
        · have hlen1 : a1.length < (renderMembers ms).length := by
            have := congrArg List.length hfl
            simp [List.length_append, List.length_cons] at this
            omega
          exact bs_members ms a1 b' ('}' :: []) (by rw [closerHead_cons]; decide)
            (by rw [uq_plain _ _ (by decide) (by decide), uq_nil]) h2 hlen1
        · exfalso
          cases a2 with
          | nil =>
            rw [List.nil_append] at hY
            injection hY with hq _
            exact absurd hq (by decide)
          | cons z a3 =>
            rw [List.cons_append] at hY
            injection hY with _ hY2
            exact absurd hY2.symm (by simp)
    unfold reviewCandidate
    rw [hsufftrim j b' hd, hd, parse_fail_of_bs b' hbs]
  have hp0 : reviewCandidate (jsTrim output) p.length = some (Json.obj ms) := by
    have hdbr : (jsTrim output).drop p.length = '{' :: (renderMembers ms ++ ['}']) := by
      rw [hdropP, hRsh]
    unfold reviewCandidate
    rw [hsufftrim p.length _ hdbr, hdropP, jsonParseText_render (Json.obj ms)]
    simp only [hkey, reduceIte]
  have hne : (jsTrim output).isEmpty = false := by
    rw [hdec, hRsh]
    simp
  rw [extractReviewJson_eval output hne]
  have hple : p.length ≤ (jsTrim output).length - 1 := by omega
  obtain ⟨i0, hi0, hpi0⟩ := lastBrace_ge (jsTrim output) ((jsTrim output).length - 1)
    p.length hbrace hple
  rw [hi0]
  exact extractScan_reaches (jsTrim output) p.length (Json.obj ms) hbrace hp0 hfail i0 hpi0
    (lastBrace_some _ _ _ hi0).2

/-- Claim C2 witness: concrete prose with an unmatched opening brace before a
rendered findings object; the scan still recovers exactly that object. -/
theorem extractReviewJson_spec_witness :
    extractReviewJson (['s', 'e', 'e', ' ', '{', ' ']
        ++ ('{' :: ('"' :: ("findings".toList ++ ['"', ':', '[', ']', '}']))))
      = .ok (.obj [("findings".toList, Json.arr [])]) := by
  have hrender : renderJson (.obj [("findings".toList, Json.arr [])])
      = '{' :: ('"' :: ("findings".toList ++ ['"', ':', '[', ']', '}'])) := by
    rw [renderJson_obj_eq, renderMembers_single_eq, renderJson_arr_eq,
      renderItems_nil_eq, renderStr]
    decide
  exact extractReviewJson_spec _ (['s', 'e', 'e', ' ', '{', ' '])
    [("findings".toList, Json.arr [])] (by rw [hrender]; rfl) (by decide)

/-! ## Claim C9: runReviewCommand disposes its instance regardless of outcome -/

/-- Optional chaining `v?.key` on a value: `null` (and, via `Option`,
`undefined`) short-circuits; property reads on non-objects yield
`undefined`. -/
def jsOptChain (v : Json) (key : List Char) : Option Json :=
  match v with
  | .null => none
  | w => jsField w key

/-- Optional chaining continued on a possibly-missing value. -/
def optChain2 (o : Option Json) (key : List Char) : Option Json :=
  match o with
  | none => none
  | some .null => none
  | some w => jsField w key

/-- The nullish-coalescing operator `??`: `null` and `undefined` fall back. -/
def nullish (o : Option Json) (dflt : Json) : Json :=
  match o with
  | none => dflt
  | some .null => dflt
  | some v => v

/-- A session-id candidate is accepted when it is a string whose trimmed form
is nonempty (`typeof candidate === "string" && candidate.trim()`). -/
def candString : Option Json → Option (List Char)
  | some (.str s) => if (jsTrim s).isEmpty then none else some s
  | _ => none

/-- Model of the source's `extractSessionID`: reject non-objects, then probe
the candidate fields in order and return the first nonblank string; report an error embedding `safeStringify(session)` when none
matches. -/
def extractSessionID (session : Json) (context : List Char) :
    Except (List Char) (List Char) :=
  if !jsTruthy session || !jsTypeofObject session then
    .error (context ++ " did not return a session object.".toList)
  else
    let candidates : List (Option Json) := [
      jsField session ("id".toList),
      jsField session ("sessionID".toList),
      optChain2 (jsField session ("info".toList)) ("id".toList),
      optChain2 (jsField session ("info".toList)) ("sessionID".toList),
      optChain2 (jsField session ("properties".toList)) ("id".toList),
      optChain2 (jsField session ("properties".toList)) ("sessionID".toList),
      optChain2 (optChain2 (jsField session ("properties".toList)) ("info".toList))
        ("id".toList),
      optChain2 (optChain2 (jsField session ("properties".toList)) ("info".toList))
        ("sessionID".toList),
      jsField session ("slug".toList)]
    match candidates.filterMap candString with
    | s :: _ => .ok s
    | [] => .error (context ++ " returned a session without an id. Response: ".toList
        ++ safeStringify session)

/-- One message part's contribution to the collected output: text parts
contribute their text, completed or failed tool parts their output or error
string. -/
def partChunk (part : Json) : Option (List Char) :=
  if jsTruthy part && jsTypeofObject part then
    match jsField part ("type".toList) with
    | some (.str ty) =>
      if ty = "text".toList then
        match jsField part ("text".toList) with
        | some (.str s) => some s
        | _ => none
      else if ty = "tool".toList then
        match jsField part ("state".toList) with
        | some st =>
          if jsTruthy st && jsTypeofObject st then
            match jsField st ("status".toList) with
            | some (.str stat) =>
              if stat = "completed".toList then
                match jsField st ("output".toList) with
                | some (.str out) => some out
                | _ => none
              else if stat = "error".toList then
                match jsField st ("error".toList) with
                | some (.str err) => some err
                | _ => none
              else none
            | _ => none
          else none
        | none => none
      else none
    | _ => none
  else none

/-- Model of the source's `collectCommandOutput`: non-arrays yield the empty
string, otherwise the chunks joined by newlines. -/
def collectCommandOutput (parts : Json) : List Char :=
  match parts with
  | .arr ps => List.intercalate ['\n'] (ps.filterMap partChunk)
  | _ => []

/-- Outcome of the review-command phase body: a returned parsed result, a
thrown error message, or no outcome at all (the scan-loop divergence). -/
inductive PhaseOutcome where
  | ok (v : Json)
  | threw (msg : List Char)
  | hangs

/-- The tail of the body after the message parts are settled: collect the
output, reject blank output, and extract the review JSON. -/
def reviewOutputPhase (parts : Json) : PhaseOutcome :=
  let output := collectCommandOutput parts
  if (jsTrim output).isEmpty then
    .threw ("Review command produced no output.".toList)
  else
    match extractReviewJson output with
    | .ok v => .ok v
    | .parseFailure => .threw ("Failed to parse review JSON from command output.".toList)
    | .emptyOutput => .threw ("Review command produced no output.".toList)
    | .diverges => .hangs

/-- Provider results and clock readings consumed by one run of
`runReviewCommand`. -/
structure ReviewEnv where
  createRes : Json
  commandRes : Json
  messageRes : Json
  disposeRes : Json
  statusRaw : Nat → Json
  times : Nat → Nat
  start : Nat
  reviewTimeoutMs : Nat
  pollIntervalMs : Nat
  waitFuel : Nat

/-- The `try` block of the source's `runReviewCommand`: create the session,
extract its id, issue the review command, wait for idle, fetch the final
message parts when a message id is present, and extract the review JSON. -/
def runReviewCommandBody (env : ReviewEnv) : PhaseOutcome :=
  match unwrap env.createRes ("session.create".toList) with
  | .error msg => .threw msg
  | .ok session =>
    match extractSessionID session ("session.create (review instance)".toList) with
    | .error msg => .threw msg
    | .ok sessionID =>
      match unwrap env.commandRes ("session.command".toList) with
      | .error msg => .threw msg
      | .ok commandResult =>
        match waitForSessionIdle sessionID env.reviewTimeoutMs env.pollIntervalMs
            env.start env.times env.statusRaw env.waitFuel with
        | none => .hangs
        | some tr =>
          match tr.outcome with
          | .error msg => .threw msg
          | .ok _ =>
            let parts0 := nullish (jsOptChain commandResult ("parts".toList)) (Json.arr [])
            let messageID := optChain2 (jsOptChain commandResult ("info".toList))
              ("id".toList)
            if statusOptTruthy messageID then
              match unwrap env.messageRes ("session.message".toList) with
              | .error msg => .threw msg
              | .ok message =>
                reviewOutputPhase (nullish (jsOptChain message ("parts".toList)) parts0)
            else reviewOutputPhase parts0

/-- Model of the source's `disposeInstance`: the dispose call is unwrapped
inside a `try`; a failure is caught and logged, after which the server is
closed. The result is the list of log lines — by the catch, the function
itself never throws, which the `Except` result type makes checkable. -/
def disposeInstance (disposeRes : Json) : Except (List Char) (List (List Char)) :=
  match unwrap disposeRes ("instance.dispose".toList) with
  | .ok _ => .ok []
  | .error msg => .ok [("Instance dispose failed: ".toList ++ msg)]

/-- JavaScript `try`/`finally`: when the body finishes (by value or by
throw), the cleanup runs; a cleanup that itself throws replaces the primary
outcome. The second component records whether the cleanup ran and what it
logged. -/
def tryFinallyJS (body : PhaseOutcome)
    (cleanup : Except (List Char) (List (List Char))) :
    PhaseOutcome × Option (List (List Char)) :=
  match body with
  | .hangs => (.hangs, none)
  | r =>
    match cleanup with
    | .ok logs => (r, some logs)
    | .error msg => (.threw msg, some [])

/-- Model of the source's `runReviewCommand`: the body inside
`try … finally await disposeInstance(…)`. -/
def runReviewCommand (env : ReviewEnv) : PhaseOutcome × Option (List (List Char)) :=
  tryFinallyJS (runReviewCommandBody env) (disposeInstance env.disposeRes)

/-- Claim C9: whenever the review-command phase finishes — returning a parsed
result or throwing any of its errors — the instance is disposed, and the
phase's primary outcome is returned unchanged: the dispose step never throws,
because a dispose failure is converted into a log line and swallowed. -/
theorem runReviewCommand_spec (env : ReviewEnv)
    (hterm : runReviewCommandBody env ≠ .hangs) :
    (∃ logs, disposeInstance env.disposeRes = .ok logs ∧
      runReviewCommand env = (runReviewCommandBody env, some logs)) ∧
    (∀ msg, unwrap env.disposeRes ("instance.dispose".toList) = .error msg →
      disposeInstance env.disposeRes = .ok [("Instance dispose failed: ".toList ++ msg)]) := by
  have hdisp : ∃ logs, disposeInstance env.disposeRes = .ok logs := by
    unfold disposeInstance
    cases unwrap env.disposeRes ("instance.dispose".toList) with
    | ok v => exact ⟨[], rfl⟩
    | error msg => exact ⟨[("Instance dispose failed: ".toList ++ msg)], rfl⟩
  obtain ⟨logs, hlogs⟩ := hdisp
  refine ⟨⟨logs, hlogs, ?_⟩, ?_⟩
  · unfold runReviewCommand tryFinallyJS
    cases hb : runReviewCommandBody env with
    | hangs => exact absurd hb hterm
    | ok v => simp only [hb, hlogs]
    | threw m => simp only [hb, hlogs]
  · intro msg hmsg
    unfold disposeInstance
    rw [hmsg]

/-- Concrete environment for the claim C9 witness: the session is created
and goes idle at once, the command produces no parts, so the body throws the
blank-output error; the dispose succeeds. -/
def envW : ReviewEnv where
  createRes := Json.obj [("id".toList, Json.str ("s1".toList))]
  commandRes := Json.obj []
  messageRes := Json.null
  disposeRes := Json.obj []
  statusRaw := fun _ => Json.obj [("s1".toList,
    Json.obj [("type".toList, Json.str ("idle".toList))])]
  times := fun _ => 0
  start := 0
  reviewTimeoutMs := 1000
  pollIntervalMs := 50
  waitFuel := 1

/-- Claim C9 witness: on the concrete environment the body terminates by
throwing, the dispose still runs and succeeds, and the thrown outcome is
passed through unchanged. -/
theorem runReviewCommand_spec_witness :
    runReviewCommandBody envW ≠ PhaseOutcome.hangs ∧
    ((∃ logs, disposeInstance envW.disposeRes = .ok logs ∧
        runReviewCommand envW = (runReviewCommandBody envW, some logs)) ∧
      (∀ msg, unwrap envW.disposeRes ("instance.dispose".toList) = .error msg →
        disposeInstance envW.disposeRes
          = .ok [("Instance dispose failed: ".toList ++ msg)])) := by
  have hbody : runReviewCommandBody envW
      = PhaseOutcome.threw ("Review command produced no output.".toList) := rfl
  have hterm : runReviewCommandBody envW ≠ PhaseOutcome.hangs := by
    intro h
    rw [hbody] at h
    exact PhaseOutcome.noConfusion h
  exact ⟨hterm, runReviewCommand_spec envW hterm⟩
